import Mathlib

/-!
Verification of the translation-merge scripts of the paperless-scanner
repository.

The repository contains three data-maintenance scripts that merge a
candidate table of key/value translation entries into per-locale Android
string-resource files:

* src/add_2fa_translations.py      - structured strategy: parses the file
  with xml.etree.ElementTree, collects the existing keys from the name
  attributes of the string elements, appends the missing entries to the
  root element and re-serializes the whole tree (ET.indent with a 4-space
  unit plus tree.write with an xml declaration).
* src/add_security_translations.py - text-marker strategy: reads the raw
  text, collects existing keys with the regular expression
  r to the effect of: open-string-name-quote, one or more non-quote
  characters, quote-gt; builds the missing entry lines and replaces every
  occurrence of the closing resources tag by block-plus-closing-tag.
* src/scripts/add_wifi_translations.py - text strategy with a sentinel:
  skips a file when it contains the substring ai_wifi_only_banner,
  otherwise inserts a fixed three-entry block after the line holding the
  anchor entry premium_settings_new_tags_desc.

File contents are embedded as List Char (byte-faithful for the ASCII
structure that the scripts manipulate; the translated payload text is
opaque).  XML character escaping is out of scope: the spec declares entry
values opaque and never transformed, and every claim below is about the
key/structure level, so values are assumed escape-free where a theorem
needs it (well-formedness hypotheses).  The ElementTree parser is modelled
by a line-based parser for the flat string-resource documents these
scripts read; attributes other than name are accepted after the name
attribute and are not retained (the scripts never read them).
-/

set_option maxRecDepth 4096

namespace PaperlessScanner

/-- A translation entry: an ordered pair of key and opaque value text,
as stored in a candidate table and in a resource file. -/
structure Entry where
  key : List Char
  val : List Char
deriving DecidableEq

/-- Per-locale merge outcome, the classification used by all three batch
drivers (spec section 3, Merge Outcome).  The writeError case is the
generic caught-exception outcome of add_2fa_translations.py (except
branch, lines 185-187) when the raising call is the write at line 180. -/
inductive Outcome where
  | added (n : Nat)
  | noop
  | notFound
  | unknownLocale
  | parseError
  | anchorNotFound
  | writeError
deriving DecidableEq

/-- The literal that opens a plain string entry; also the fixed part of the
regular expression of add_security_translations.py line 152. -/
def pat : List Char := "<string name=\"".toList

/-- The closing tag of the resource collection. -/
def closeTag : List Char := "</resources>".toList

/-- The closing tag of one string entry. -/
def closeStr : List Char := "</string>".toList

/-- Four-space indentation unit used by both writers. -/
def spaces4 : List Char := "    ".toList

/-- Start of an xml declaration line. -/
def declHead : List Char := "<?xml".toList

/-- The declaration line ElementTree emits for encoding utf-8. -/
def xmlDecl : List Char := "<?xml version='1.0' encoding='utf-8'?>".toList

/-- The opening tag of the resource collection. -/
def resOpen : List Char := "<resources>".toList

/-- The sentinel substring checked by add_wifi_translations.py line 134. -/
def sentinelW : List Char := "ai_wifi_only_banner".toList

/-- The anchor literal of add_wifi_translations.py line 139. -/
def markerW : List Char := "<string name=\"premium_settings_new_tags_desc\">".toList

/-! ### The regex scanner of the text strategy

re.findall with the pattern: literal pat, a nonempty run of non-quote
characters (the key), then quote-gt.  Scanning is left to right and
non-overlapping: after a match it resumes at the end of the match, after a
failed position it advances one character. -/

/-- One match attempt at the head of the character list: strip the literal
pat, take the nonempty quote-free key, require a quote and a gt sign.
Mirrors what the regex of add_security_translations.py line 152 matches at
one position (the character class also matches newlines, as in Python). -/
def tryMatch (cs : List Char) : Option (List Char × List Char) :=
  if pat.isPrefixOf cs then
    let rest := cs.drop pat.length
    let k := rest.takeWhile (fun c => c != '"')
    match rest.dropWhile (fun c => c != '"') with
    | '"' :: '>' :: t => if k.isEmpty then none else some (k, t)
    | _ => none
  else none

/-- Fuel-driven scanner; fuel at least the length of the list makes it
total and equal to the Python scan. -/
def findKeysFuel : Nat → List Char → List (List Char)
  | 0, _ => []
  | fuel + 1, cs =>
    match tryMatch cs with
    | some (k, rest) => k :: findKeysFuel fuel rest
    | none =>
      match cs with
      | [] => []
      | _ :: t => findKeysFuel fuel t

/-- The existing-key extraction of the text strategy:
re.findall of the string-name pattern over the whole content
(add_security_translations.py line 152). -/
def findKeys (cs : List Char) : List (List Char) :=
  findKeysFuel cs.length cs

/-- Index of the first occurrence of a pattern (Python str.find, with
none for the -1 result). -/
def findSub : List Char → List Char → Option Nat
  | cs, p =>
    if p.isPrefixOf cs then some 0
    else
      match cs with
      | [] => none
      | _ :: t => (findSub t p).map (· + 1)

/-- Python content.find(sub, start): first occurrence at or after start. -/
def findSubFrom (cs p : List Char) (start : Nat) : Option Nat :=
  (findSub (cs.drop start) p).map (· + start)

/-- Python str.replace for a nonempty pattern, fuel-driven: replaces every
non-overlapping occurrence from the left, never rescanning the
replacement. -/
def replaceAllFuel : Nat → List Char → List Char → List Char → List Char
  | 0, cs, _, _ => cs
  | fuel + 1, cs, p, r =>
    if p.isPrefixOf cs then r ++ replaceAllFuel fuel (cs.drop p.length) p r
    else
      match cs with
      | [] => []
      | c :: t => c :: replaceAllFuel fuel t p r

/-- Python content.replace(p, r) for nonempty p. -/
def replaceAll (cs p r : List Char) : List Char :=
  replaceAllFuel cs.length cs p r

/-! ### Line structure, parsing and serialization (structured strategy)

xml.etree.ElementTree is modelled on the document class these scripts
actually read and write: a flat resources element whose children are
string elements on lines of their own.  The parser tolerates arbitrary
surrounding whitespace and extra attributes after the name attribute; the
writer is ET.indent with a 4-space unit followed by tree.write with an
xml declaration (single-quoted, as ElementTree emits). -/

/-- Split into lines at every newline character (Python splitlines keeps
no separators; a trailing newline yields a final empty line). -/
def splitLines : List Char → List (List Char)
  | [] => [[]]
  | c :: cs =>
    if c = '\n' then [] :: splitLines cs
    else
      match splitLines cs with
      | [] => [[c]]
      | l :: ls => (c :: l) :: ls

/-- Whitespace as stripped around tags. -/
def isWs (c : Char) : Bool := c = ' ' || c = '\t' || c = '\r'

/-- Strip leading whitespace. -/
def trimL (l : List Char) : List Char := l.dropWhile isWs

/-- Strip trailing whitespace. -/
def trimR (l : List Char) : List Char := (l.reverse.dropWhile isWs).reverse

/-- Strip whitespace on both ends of a line. -/
def trim (l : List Char) : List Char := trimR (trimL l)

/-- Parse one string-element line: the name attribute first, optional
further attributes up to the closing gt, then the text up to the
closing string tag.  Yields the key and the value, as
ElementTree exposes them via get and text. -/
def parseEntryLine (l : List Char) : Option Entry :=
  let t := trim l
  if pat.isPrefixOf t then
    let rest := t.drop pat.length
    let k := rest.takeWhile (fun c => c != '"')
    match rest.dropWhile (fun c => c != '"') with
    | '"' :: r3 =>
      match r3.dropWhile (fun c => c != '>') with
      | '>' :: r5 =>
        let v := r5.takeWhile (fun c => c != '<')
        let r6 := r5.dropWhile (fun c => c != '<')
        if r6 = closeStr ∧ k ≠ [] then some ⟨k, v⟩ else none
      | _ => none
    | _ => none
  else none

/-- Parse the lines after the opening resources tag: entry lines and blank
lines until the closing tag, then only blank lines may follow (a parse
error anywhere is the ParseError outcome of ET.parse). -/
def parseLinesAux : List (List Char) → Option (List Entry)
  | [] => none
  | l :: ls =>
    if trim l = closeTag then
      if ls.all (fun l2 => trim l2 = []) then some [] else none
    else if trim l = [] then parseLinesAux ls
    else
      match parseEntryLine l, parseLinesAux ls with
      | some e, some es => some (e :: es)
      | _, _ => none

/-- ET.parse on a flat string-resource document: an optional declaration
line, the opening resources tag on its own line, the entries, the closing
tag.  Returns the children in document order. -/
def parseXml (s : List Char) : Option (List Entry) :=
  let ls := splitLines s
  let ls1 :=
    match ls with
    | l :: rest => if declHead.isPrefixOf l then rest else ls
    | [] => ls
  match ls1 with
  | l :: rest => if trim l = resOpen then parseLinesAux rest else none
  | [] => none

/-- The serialized line of one entry, as both writers emit it:
4-space indent, the name attribute, the text, the closing tag, newline. -/
def entryLine (e : Entry) : List Char :=
  spaces4 ++ pat ++ e.key ++ '"' :: '>' :: (e.val ++ closeStr ++ ['\n'])

/-- A flat resource file: a header, the entry lines, the closing tag. -/
def flatFile (hdr : List Char) (es : List Entry) : List Char :=
  hdr ++ (es.map entryLine).flatten ++ closeTag

/-- The header ElementTree writes: declaration line and opening tag. -/
def canonHdr : List Char := xmlDecl ++ '\n' :: resOpen ++ ['\n']

/-- ET.indent(tree, 4 spaces) followed by tree.write(xml_declaration=True,
encoding utf-8) on a flat resources tree: declaration line, opening tag,
one indented line per child, closing tag, no trailing newline.  (An entry
with empty text would render self-closed by ElementTree; the claims below
never depend on the rendering of empty-valued entries.) -/
def serializeXml (es : List Entry) : List Char :=
  flatFile canonHdr es

/-! ### The merge planner and the three per-file merges -/

/-- The merge planner: the subsequence of the candidate entries whose key
is not among the existing keys, in candidate order.  This is the loop
shared by add_2fa_translations.py lines 170-176 and
add_security_translations.py lines 155-158. -/
def plan (existing : List (List Char)) (ts : List Entry) : List Entry :=
  ts.filter (fun e => decide (e.key ∉ existing))

/-- add_2fa_translations.py, add_translations_to_file (lines 155-187),
at the level of one file content: parse, collect the name attributes,
return unchanged when the candidate keys are a subset, else append the
missing entries to the root and re-serialize.  The boolean write-back and
the prints are reflected in the outcome. -/
def mergeXml (ts : List Entry) (s : List Char) : List Char × Outcome :=
  match parseXml s with
  | none => (s, .parseError)
  | some root =>
    let existing := root.map (·.key)
    if ts.all (fun e => decide (e.key ∈ existing)) then (s, .noop)
    else
      let added := plan existing ts
      (serializeXml (root ++ added), .added added.length)

/-- add_security_translations.py, add_translations_to_file (lines
147-178), at the level of one file content: regex key extraction, build
the missing entry lines, no write when none are missing, else replace
every occurrence of the closing tag by block-plus-closing-tag; missing
closing tag is the anchor error. -/
def mergeSecurity (ts : List Entry) (s : List Char) : List Char × Outcome :=
  let existing := findKeys s
  let newStrings := plan existing ts
  if newStrings = [] then (s, .noop)
  else if (findSub s closeTag).isSome then
    (replaceAll s closeTag ((newStrings.map entryLine).flatten ++ closeTag),
     .added newStrings.length)
  else (s, .anchorNotFound)

/-- The per-locale translation record of add_wifi_translations.py. -/
structure WifiTrans where
  banner : List Char
  button : List Char
  hint : List Char
deriving DecidableEq

/-- The three-entry block add_wifi_translations.py builds (lines 151-156):
a blank line, then the three fixed keys with the locale texts. -/
def wifiBlock (t : WifiTrans) : List Char :=
  '\n' :: '\n' :: spaces4 ++ "<string name=\"ai_wifi_only_banner\">".toList ++
    t.banner ++ closeStr ++
  '\n' :: spaces4 ++ "<string name=\"ai_wifi_only_override_button\">".toList ++
    t.button ++ closeStr ++
  '\n' :: spaces4 ++ "<string name=\"ai_wifi_required_hint\">".toList ++
    t.hint ++ closeStr ++ ['\n']

/-- The insertion of add_wifi_translations.py lines 145-159: locate the
anchor, the end of its closing string tag (Python find yields -1 when
absent, so line_end becomes 8), the following newline, and splice the
block there; when no newline follows, Python content[:-1] and
content[-1:] insert before the last character. -/
def insertWifi (t : WifiTrans) (s : List Char) (markerPos : Nat) : List Char :=
  let lineEnd : Nat :=
    match findSubFrom s closeStr markerPos with
    | some i => i + closeStr.length
    | none => 8
  match findSubFrom s ['\n'] lineEnd with
  | some n => s.take n ++ wifiBlock t ++ s.drop n
  | none => s.dropLast ++ wifiBlock t ++ (s.getLast?.map ([·])).getD []

/-- add_wifi_translations.py, the per-file body of add_translations
(lines 129-165), with the chosen translation record supplied: skip when
the sentinel substring is present, anchor error when the marker is
absent, else insert the block after the anchor line. -/
def mergeWifi (t : WifiTrans) (s : List Char) : List Char × Outcome :=
  if (findSub s sentinelW).isSome then (s, .noop)
  else
    match findSub s markerW with
    | none => (s, .anchorNotFound)
    | some markerPos => (insertWifi t s markerPos, .added 3)

/-! ### Batch drivers

Each script's main loop iterates a table (or the folder map, for the wifi
script), resolves the per-locale file, runs the per-file merge and records
a per-locale outcome.  The directory tree is modelled as a map from
folder name to optional file content. -/

/-- The filesystem: one optional strings.xml content per values folder. -/
def FS : Type := String → Option (List Char)

/-- Write one file. -/
def fsWrite (fs : FS) (k : String) (v : List Char) : FS :=
  fun k' => if k' = k then some v else fs k'

/-- Association lookup in a locale map (Python dict .get). -/
def lookupL {α : Type} : List (String × α) → String → Option α
  | [], _ => none
  | p :: ps, k => if p.1 = k then some p.2 else lookupL ps k

/-- add_2fa_translations.py main, lines 197-204: English uses the default
values folder, every other locale its suffixed folder. -/
def folder2fa (lang : String) : String :=
  if lang = "en" then "values" else "values-" ++ lang

/-- One iteration of the 2fa main loop: resolve the folder, report a
missing file, else merge and write back exactly when entries were
added. -/
def step2fa (fs : FS) (lc : String × List Entry) : FS × (String × Outcome) :=
  match fs (folder2fa lc.1) with
  | none => (fs, (lc.1, .notFound))
  | some s =>
    let r := mergeXml lc.2 s
    match r.2 with
    | .added n => (fsWrite fs (folder2fa lc.1) r.1, (lc.1, .added n))
    | o => (fs, (lc.1, o))

/-- The 2fa batch: process the candidate table in order, threading the
filesystem and collecting one outcome per locale. -/
def run2fa (fs : FS) : List (String × List Entry) → FS × List (String × Outcome)
  | [] => (fs, [])
  | lc :: rest =>
    let r := step2fa fs lc
    let rr := run2fa r.1 rest
    (rr.1, r.2 :: rr.2)

/-- The folder map of add_security_translations.py lines 113-130. -/
def LANG_FOLDERS : List (String × String) :=
  [("en", "values-en"), ("fr", "values-fr"), ("es", "values-es"),
   ("it", "values-it"), ("pt", "values-pt"), ("nl", "values-nl"),
   ("pl", "values-pl"), ("sv", "values-sv"), ("da", "values-da"),
   ("no", "values-no"), ("fi", "values-fi"), ("cs", "values-cs"),
   ("hu", "values-hu"), ("el", "values-el"), ("ro", "values-ro"),
   ("tr", "values-tr")]

/-- One iteration of the security main loop (add_translations_to_file,
lines 135-178) in an execution whose file accesses all succeed: unknown
locale (lines 137-140), missing file (os.path.exists, lines 143-145),
else merge; the file is rewritten exactly when entries were added.
Unlike the 2fa script, this function contains no try/except, so the
unguarded open calls at lines 148-149 and 175-176 can raise out of it;
stepSecurityW below models that error path, and this function is the
restriction of stepSecurityW to the environment where no write raises. -/
def stepSecurity (fs : FS) (lc : String × List Entry) : FS × (String × Outcome) :=
  match lookupL LANG_FOLDERS lc.1 with
  | none => (fs, (lc.1, .unknownLocale))
  | some folder =>
    match fs folder with
    | none => (fs, (lc.1, .notFound))
    | some s =>
      let r := mergeSecurity lc.2 s
      match r.2 with
      | .added n => (fsWrite fs folder r.1, (lc.1, .added n))
      | o => (fs, (lc.1, o))

/-- The security batch over a candidate table. -/
def runSecurity (fs : FS) : List (String × List Entry) → FS × List (String × Outcome)
  | [] => (fs, [])
  | lc :: rest =>
    let r := stepSecurity fs lc
    let rr := runSecurity r.1 rest
    (rr.1, r.2 :: rr.2)

/-! The two scripts face the same operating-system hazard — the write-back
of the merged file can raise an OSError — but handle it differently: the
whole per-locale body of add_2fa_translations.py sits inside try/except
(lines 155-187), while add_security_translations.py has no exception
handler at all, neither in add_translations_to_file (lines 135-178) nor
in main's loop.  The environment is modelled by a predicate wf telling
for which folders the open-for-writing of strings.xml raises before any
byte is written (add_2fa line 180 via tree.write, add_security line 175);
nothing below depends on the content a file would hold after a failed
write. -/

/-- One iteration of the 2fa main loop under the IO environment wf: a
raised write error is caught by the except branch (lines 185-187),
reported as a generic per-locale error outcome, and the loop goes on. -/
def step2faW (wf : String → Bool) (fs : FS) (lc : String × List Entry) :
    FS × (String × Outcome) :=
  match fs (folder2fa lc.1) with
  | none => (fs, (lc.1, .notFound))
  | some s =>
    let r := mergeXml lc.2 s
    match r.2 with
    | .added n =>
      if wf (folder2fa lc.1) then (fs, (lc.1, .writeError))
      else (fsWrite fs (folder2fa lc.1) r.1, (lc.1, .added n))
    | o => (fs, (lc.1, o))

/-- The 2fa batch under the IO environment wf: total, because every
per-locale failure is caught inside the loop body. -/
def run2faW (wf : String → Bool) (fs : FS) :
    List (String × List Entry) → FS × List (String × Outcome)
  | [] => (fs, [])
  | lc :: rest =>
    let r := step2faW wf fs lc
    let rr := run2faW wf r.1 rest
    (rr.1, r.2 :: rr.2)

/-- One iteration of the security main loop under the IO environment wf:
wf folder = true means the open at line 175 raises, and with no
try/except anywhere in the script the exception escapes main's loop —
the none result, as for the wifi driver's KeyError. -/
def stepSecurityW (wf : String → Bool) (fs : FS) (lc : String × List Entry) :
    Option (FS × (String × Outcome)) :=
  match lookupL LANG_FOLDERS lc.1 with
  | none => some (fs, (lc.1, .unknownLocale))
  | some folder =>
    match fs folder with
    | none => some (fs, (lc.1, .notFound))
    | some s =>
      let r := mergeSecurity lc.2 s
      match r.2 with
      | .added n =>
        if wf folder then none
        else some (fsWrite fs folder r.1, (lc.1, .added n))
      | o => some (fs, (lc.1, o))

/-- The security batch under the IO environment wf: an uncaught exception
at any locale aborts the whole run, the remaining locales unprocessed. -/
def runSecurityW (wf : String → Bool) (fs : FS) :
    List (String × List Entry) → Option (FS × List (String × Outcome))
  | [] => some (fs, [])
  | lc :: rest =>
    match stepSecurityW wf fs lc with
    | none => none
    | some r =>
      match runSecurityW wf r.1 rest with
      | none => none
      | some rr => some (rr.1, r.2 :: rr.2)

/-- The folder map of add_wifi_translations.py lines 99-117 (German uses
the default values folder). -/
def lang_folders : List (String × String) :=
  [("de", "values"), ("en", "values-en"), ("fr", "values-fr"),
   ("es", "values-es"), ("it", "values-it"), ("pt", "values-pt"),
   ("nl", "values-nl"), ("pl", "values-pl"), ("sv", "values-sv"),
   ("da", "values-da"), ("no", "values-no"), ("fi", "values-fi"),
   ("cs", "values-cs"), ("hu", "values-hu"), ("el", "values-el"),
   ("ro", "values-ro"), ("tr", "values-tr")]

/-- One iteration of the wifi loop (add_translations, lines 122-165):
missing file and the two content checks first; only then is the
translation record resolved, falling back to the English record
(translations.get(lang_code, translations[en-key])); when even the
English record is absent Python raises KeyError and the whole batch
aborts, hence the none result. -/
def stepWifi (table : List (String × WifiTrans)) (fs : FS)
    (lf : String × String) : Option (FS × (String × Outcome)) :=
  match fs lf.2 with
  | none => some (fs, (lf.1, .notFound))
  | some s =>
    if (findSub s sentinelW).isSome then some (fs, (lf.1, .noop))
    else
      match findSub s markerW with
      | none => some (fs, (lf.1, .anchorNotFound))
      | some markerPos =>
        match (lookupL table lf.1).orElse (fun _ => lookupL table "en") with
        | none => none
        | some tr =>
          some (fsWrite fs lf.2 (insertWifi tr s markerPos), (lf.1, .added 3))

/-- The wifi batch: iterates the folder map, not the candidate table. -/
def runWifi (table : List (String × WifiTrans)) (fs : FS) :
    List (String × String) → Option (FS × List (String × Outcome))
  | [] => some (fs, [])
  | lf :: rest =>
    match stepWifi table fs lf with
    | none => none
    | some r =>
      match runWifi table r.1 rest with
      | none => none
      | some rr => some (rr.1, r.2 :: rr.2)

/-! ### Basic facts about the scanners -/

theorem isPrefixOf_iff (l₁ l₂ : List Char) :
    l₁.isPrefixOf l₂ = true ↔ ∃ t, l₁ ++ t = l₂ := by
  induction l₁ generalizing l₂ with
  | nil => simp [List.isPrefixOf]
  | cons a as ih =>
    cases l₂ with
    | nil => simp [List.isPrefixOf]
    | cons b bs =>
      simp only [List.isPrefixOf, Bool.and_eq_true, beq_iff_eq, ih,
        List.cons_append, List.cons.injEq]
      constructor
      · rintro ⟨h1, t, h2⟩; exact ⟨t, h1, h2⟩
      · rintro ⟨t, h1, h2⟩; exact ⟨h1, t, h2⟩

theorem isPrefixOf_append (l t : List Char) :
    l.isPrefixOf (l ++ t) = true :=
  (isPrefixOf_iff l (l ++ t)).2 ⟨t, rfl⟩

theorem isPrefixOf_nil (l : List Char) (h : l ≠ []) :
    l.isPrefixOf [] = false := by
  cases l with
  | nil => exact absurd rfl h
  | cons a as => rfl

/-- findSub finds something exactly when the pattern occurs. -/
theorem findSub_isSome_iff (cs p : List Char) :
    (findSub cs p).isSome = true ↔ ∃ a b, cs = a ++ p ++ b := by
  induction cs with
  | nil =>
    cases p with
    | nil => simp [findSub, List.isPrefixOf]
    | cons x xs =>
      rw [findSub]
      have h : (x :: xs).isPrefixOf ([] : List Char) = false := rfl
      simp only [h, Bool.false_eq_true, if_false, Option.isSome_none,
        false_iff]
      rintro ⟨a, b, hab⟩
      have hl := congrArg List.length hab
      simp only [List.length_nil, List.length_append, List.length_cons] at hl
      omega
  | cons c t ih =>
    rw [findSub]
    by_cases h : p.isPrefixOf (c :: t) = true
    · obtain ⟨u, hu⟩ := (isPrefixOf_iff _ _).1 h
      simp only [h, if_pos]
      constructor
      · intro _
        exact ⟨[], u, by simp [hu]⟩
      · intro _
        rfl
    · have hmap : ((findSub t p).map (· + 1)).isSome = (findSub t p).isSome := by
        cases findSub t p <;> rfl
      simp only [h, Bool.false_eq_true, if_false, hmap, ih]
      constructor
      · rintro ⟨a, b, hab⟩; exact ⟨c :: a, b, by simp [hab]⟩
      · rintro ⟨a, b, hab⟩
        cases a with
        | nil =>
          exact absurd ((isPrefixOf_iff p (c :: t)).2 ⟨b, by simp [hab]⟩) h
        | cons a0 as =>
          refine ⟨as, b, ?_⟩
          simp only [List.cons_append, List.cons.injEq] at hab
          exact hab.2

theorem takeWhile_bne_append (x : Char) (k t : List Char) (hk : x ∉ k) :
    (k ++ x :: t).takeWhile (fun c => c != x) = k := by
  induction k with
  | nil => simp [List.takeWhile_cons]
  | cons a as ih =>
    simp only [List.mem_cons, not_or] at hk
    have ha : (a != x) = true := by
      simp only [bne_iff_ne, ne_eq]
      exact fun h => hk.1 h.symm
    simp only [List.cons_append, List.takeWhile_cons, ha, if_true]
    rw [ih hk.2]

theorem dropWhile_bne_append (x : Char) (k t : List Char) (hk : x ∉ k) :
    (k ++ x :: t).dropWhile (fun c => c != x) = x :: t := by
  induction k with
  | nil => simp [List.dropWhile_cons]
  | cons a as ih =>
    simp only [List.mem_cons, not_or] at hk
    have ha : (a != x) = true := by
      simp only [bne_iff_ne, ne_eq]
      exact fun h => hk.1 h.symm
    simp only [List.cons_append, List.dropWhile_cons, ha, if_true]
    exact ih hk.2

theorem pat_length : pat.length = 14 := rfl

/-- A successful match: the literal, a nonempty quote-free key, quote-gt. -/
theorem tryMatch_eq_some (k t : List Char) (hk : '"' ∉ k) (hne : k ≠ []) :
    tryMatch (pat ++ (k ++ '"' :: '>' :: t)) = some (k, t) := by
  rw [tryMatch]
  rw [isPrefixOf_append]
  simp only [if_true, List.drop_left]
  rw [takeWhile_bne_append '"' k ('>' :: t) hk,
    dropWhile_bne_append '"' k ('>' :: t) hk]
  simp [List.isEmpty_iff, hne]

/-- A match never starts where the literal is not a prefix. -/
theorem tryMatch_none_of_not_pref (cs : List Char)
    (h : pat.isPrefixOf cs = false) : tryMatch cs = none := by
  rw [tryMatch, h]
  simp

/-- A match never starts at a character other than the opening lt. -/
theorem tryMatch_none_not_lt (c : Char) (cs : List Char) (h : c ≠ '<') :
    tryMatch (c :: cs) = none := by
  apply tryMatch_none_of_not_pref
  show (('<' == c) && _) = false
  have : ('<' == c) = false := by
    simp only [beq_eq_false_iff_ne, ne_eq]
    exact fun h2 => h h2.symm
  rw [this, Bool.false_and]

/-- A match never starts at an lt not followed by the letter s. -/
theorem tryMatch_none_second (c : Char) (cs : List Char) (h : c ≠ 's') :
    tryMatch ('<' :: c :: cs) = none := by
  apply tryMatch_none_of_not_pref
  show (('<' == '<') && (('s' == c) && _)) = false
  have : ('s' == c) = false := by
    simp only [beq_eq_false_iff_ne, ne_eq]
    exact fun h2 => h h2.symm
  rw [this]
  simp

/-- Inversion of a successful match. -/
theorem tryMatch_some_shape (cs k t : List Char)
    (h : tryMatch cs = some (k, t)) :
    cs = pat ++ k ++ '"' :: '>' :: t ∧ '"' ∉ k ∧ k ≠ [] := by
  rw [tryMatch] at h
  split at h
  case isTrue hp =>
    obtain ⟨u, hu⟩ := (isPrefixOf_iff _ _).1 hp
    rw [← hu, List.drop_left] at h
    dsimp only at h
    split at h
    case h_1 t' heq =>
      split at h
      case isTrue => exact absurd h (by simp)
      case isFalse hke =>
        have hkt := List.takeWhile_append_dropWhile
          (p := fun c => c != '"') (l := u)
        injection h with h2
        injection h2 with h3 h4
        subst h3; subst h4
        refine ⟨?_, ?_, ?_⟩
        · rw [← hu, List.append_assoc, ← heq, hkt]
        · intro hmem
          have := List.mem_takeWhile_imp hmem
          simp at this
        · simpa [List.isEmpty_iff] using hke
    case h_2 => exact absurd h (by simp)
  case isFalse => exact absurd h (by simp)

/-- A match consumes at least the literal, the key and the two closers. -/
theorem tryMatch_some_len (cs k t : List Char)
    (h : tryMatch cs = some (k, t)) : t.length + 17 ≤ cs.length := by
  obtain ⟨hshape, _, hne⟩ := tryMatch_some_shape cs k t h
  have := congrArg List.length hshape
  simp only [List.length_append, List.length_cons, pat_length] at this
  have hk1 : 1 ≤ k.length := by
    cases k with
    | nil => exact absurd rfl hne
    | cons a as => simp
  omega

theorem tryMatch_nil : tryMatch [] = none := by decide

theorem findKeysFuel_nil (fuel : Nat) : findKeysFuel fuel [] = [] := by
  cases fuel with
  | zero => rfl
  | succ f => rw [findKeysFuel, tryMatch_nil]

/-- Any sufficient fuel computes the same scan. -/
theorem findKeysFuel_irrel (n : Nat) :
    ∀ (cs : List Char) (fuel : Nat), cs.length ≤ n → cs.length ≤ fuel →
    findKeysFuel fuel cs = findKeysFuel cs.length cs := by
  induction n with
  | zero =>
    intro cs fuel h1 _
    have : cs = [] := List.eq_nil_of_length_eq_zero (by omega)
    subst this
    simp [findKeysFuel_nil]
  | succ m ih =>
    intro cs fuel h1 h2
    cases cs with
    | nil => simp [findKeysFuel_nil]
    | cons c tail =>
      obtain ⟨f, rfl⟩ : ∃ f, fuel = f + 1 :=
        ⟨fuel - 1, by simp at h2; omega⟩
      simp only [List.length_cons]
      rw [findKeysFuel, findKeysFuel]
      cases htm : tryMatch (c :: tail) with
      | none =>
        simp only [List.length_cons] at h1 h2
        exact ih tail f (by omega) (by omega)
      | some kr =>
        obtain ⟨k, r⟩ := kr
        have hlen := tryMatch_some_len _ _ _ htm
        simp only [List.length_cons] at h1 h2 hlen
        dsimp only
        rw [ih r f (by omega) (by omega), ih r tail.length (by omega) (by omega)]

theorem findKeys_nil : findKeys [] = [] := rfl

/-- Walk: a failed position advances one character. -/
theorem findKeys_cons_none (c : Char) (cs : List Char)
    (h : tryMatch (c :: cs) = none) : findKeys (c :: cs) = findKeys cs := by
  unfold findKeys
  simp only [List.length_cons]
  rw [findKeysFuel, h]

/-- Walk: a successful position emits the key and resumes after the
match. -/
theorem findKeys_match (cs k t : List Char) (h : tryMatch cs = some (k, t)) :
    findKeys cs = k :: findKeys t := by
  cases cs with
  | nil => rw [tryMatch_nil] at h; exact absurd h (by simp)
  | cons c tail =>
    unfold findKeys
    simp only [List.length_cons]
    rw [findKeysFuel, h]
    have hlen := tryMatch_some_len _ _ _ h
    simp only [List.length_cons] at hlen
    dsimp only
    rw [findKeysFuel_irrel tail.length t tail.length (by omega) (by omega)]

/-- No match starts anywhere inside the chunk, whatever follows it. -/
def NoStart (a : List Char) : Prop :=
  ∀ (i : Nat) (b : List Char), i < a.length → tryMatch (a.drop i ++ b) = none

theorem NoStart_nil : NoStart [] := by
  intro i b hi
  simp at hi

theorem NoStart_append {a1 a2 : List Char} (h1 : NoStart a1)
    (h2 : NoStart a2) : NoStart (a1 ++ a2) := by
  intro i b hi
  rw [List.drop_append_eq_append_drop]
  by_cases hia : i < a1.length
  · rw [List.append_assoc]
    have hd : a1.drop i ≠ [] := by
      intro hnil
      have := congrArg List.length hnil
      simp at this
      omega
    have := h1 i (a1.drop i ++ (a2.drop (i - a1.length) ++ b)) hia
    convert h1 i (a2.drop (i - a1.length) ++ b) hia using 2
  · have hge : a1.length ≤ i := by omega
    rw [List.drop_eq_nil_of_le hge]
    simp only [List.nil_append]
    apply h2
    simp only [List.length_append] at hi
    omega

theorem NoStart_of_all_ne (a : List Char) (h : ∀ c ∈ a, c ≠ '<') :
    NoStart a := by
  intro i b hi
  cases hd : a.drop i with
  | nil =>
    have := congrArg List.length hd
    simp at this
    omega
  | cons c t =>
    have hc : c ∈ a := by
      have : c ∈ a.drop i := by rw [hd]; exact List.mem_cons_self c t
      exact List.drop_subset i a this
    rw [List.cons_append]
    exact tryMatch_none_not_lt c (t ++ b) (h c hc)

theorem NoStart_cons (c : Char) (a : List Char)
    (hc : ∀ b, tryMatch (c :: (a ++ b)) = none) (ha : NoStart a) :
    NoStart (c :: a) := by
  intro i b hi
  cases i with
  | zero => simpa using hc b
  | succ j =>
    have := ha j b (by simpa using hi)
    simpa using this

theorem NoStart_closeStr : NoStart closeStr := by
  have he : closeStr = '<' :: "/string>".toList := rfl
  rw [he]
  refine NoStart_cons '<' _ (fun b => ?_) (NoStart_of_all_ne _ (by decide))
  exact tryMatch_none_second '/' _ (by decide)

theorem NoStart_closeTag : NoStart closeTag := by
  have he : closeTag = '<' :: "/resources>".toList := rfl
  rw [he]
  refine NoStart_cons '<' _ (fun b => ?_) (NoStart_of_all_ne _ (by decide))
  exact tryMatch_none_second '/' _ (by decide)

theorem NoStart_spaces4 : NoStart spaces4 :=
  NoStart_of_all_ne _ (by decide)

/-- Walk a chunk at whose positions no match starts. -/
theorem findKeys_skip (a b : List Char)
    (h : ∀ i, i < a.length → tryMatch (a.drop i ++ b) = none) :
    findKeys (a ++ b) = findKeys b := by
  induction a with
  | nil => simp
  | cons c t ih =>
    have h0 := h 0 (by simp)
    simp only [List.drop_zero, List.cons_append] at h0
    rw [List.cons_append, findKeys_cons_none _ _ h0]
    exact ih (fun i hi => by
      have := h (i + 1) (by simpa using Nat.succ_lt_succ hi)
      simpa using this)

theorem findKeys_skip_of_NoStart (a b : List Char) (h : NoStart a) :
    findKeys (a ++ b) = findKeys b :=
  findKeys_skip a b (fun i hi => h i b hi)

/-! ### Well-formedness of resource content

The claims quantify over resource files; the hypotheses below delimit the
flat string-resource documents the scripts are written for: identifiers
as keys, single-line escape-free opaque values, a header line free of
double quotes (as ElementTree emits) and of slashes. -/

/-- A well-formed entry key: nonempty, no quote, no markup, one line. -/
def wfKey (k : List Char) : Prop :=
  k ≠ [] ∧ '"' ∉ k ∧ '<' ∉ k ∧ '\n' ∉ k

/-- A well-formed entry value: no markup, one line. -/
def wfVal (v : List Char) : Prop := '<' ∉ v ∧ '\n' ∉ v

/-- A well-formed entry. -/
def wfEntry (e : Entry) : Prop := wfKey e.key ∧ wfVal e.val

/-- Every entry of a list is well-formed. -/
def wfTable (ts : List Entry) : Prop := ∀ e ∈ ts, wfEntry e

/-- A well-formed header chunk (declaration line and opening tag). -/
def wfHdr (h : List Char) : Prop := '"' ∉ h ∧ '/' ∉ h

instance (k : List Char) : Decidable (wfKey k) := by
  unfold wfKey; infer_instance

instance (v : List Char) : Decidable (wfVal v) := by
  unfold wfVal; infer_instance

instance (e : Entry) : Decidable (wfEntry e) := by
  unfold wfEntry; infer_instance

instance (ts : List Entry) : Decidable (wfTable ts) := by
  unfold wfTable; infer_instance

instance (h : List Char) : Decidable (wfHdr h) := by
  unfold wfHdr; infer_instance

/-- Scanning one serialized entry line yields exactly its key. -/
theorem findKeys_entry (e : Entry) (b : List Char) (hk : '"' ∉ e.key)
    (hne : e.key ≠ []) (hv : '<' ∉ e.val) :
    findKeys (entryLine e ++ b) = e.key :: findKeys b := by
  have h1 : entryLine e ++ b =
      spaces4 ++ (pat ++ (e.key ++ '"' :: '>' ::
        (e.val ++ (closeStr ++ ('\n' :: b))))) := by
    simp [entryLine, List.append_assoc]
  rw [h1, findKeys_skip_of_NoStart _ _ NoStart_spaces4,
    findKeys_match _ e.key (e.val ++ (closeStr ++ ('\n' :: b)))
      (tryMatch_eq_some _ _ hk hne)]
  congr 1
  rw [findKeys_skip_of_NoStart _ _ (NoStart_of_all_ne e.val
      (fun c hc h => hv (h ▸ hc))),
    findKeys_skip_of_NoStart _ _ NoStart_closeStr,
    findKeys_cons_none _ _ (tryMatch_none_not_lt '\n' b (by decide))]

/-- Scanning the serialized entry lines yields exactly their keys. -/
theorem findKeys_entries (es : List Entry) (b : List Char)
    (h : wfTable es) :
    findKeys ((es.map entryLine).flatten ++ b) =
      es.map (·.key) ++ findKeys b := by
  induction es with
  | nil => simp
  | cons e rest ih =>
    have he := h e (List.mem_cons_self e rest)
    simp only [List.map_cons, List.flatten_cons, List.append_assoc]
    rw [findKeys_entry e _ he.1.2.1 he.1.1 he.2.1]
    rw [ih (fun x hx => h x (List.mem_cons_of_mem e hx))]
    simp

/-- The scan never starts a match inside a quote-free header when the
thirteen characters that follow the header are also quote-free: the
literal ends in a quote, so a match beginning in the header would need a
quote in one of the two regions. -/
theorem hdr_no_match (hdr b : List Char) (hq : '"' ∉ hdr)
    (hb : '"' ∉ b.take 13) :
    ∀ i, i < hdr.length → tryMatch (hdr.drop i ++ b) = none := by
  intro i hi
  apply tryMatch_none_of_not_pref
  cases hp : pat.isPrefixOf (hdr.drop i ++ b) with
  | false => rfl
  | true =>
    exfalso
    obtain ⟨u, hu⟩ := (isPrefixOf_iff _ _).1 hp
    have hAne : 1 ≤ (hdr.drop i).length := by
      simp only [List.length_drop]
      omega
    by_cases hlen : 14 ≤ (hdr.drop i).length
    · have h14 := congrArg (List.take 14) hu
      rw [List.take_append_eq_append_take, List.take_append_eq_append_take]
        at h14
      have hp14 : pat.take 14 = pat := by decide
      have hz : 14 - pat.length = 0 := by rw [pat_length]
      have hz2 : 14 - (hdr.drop i).length = 0 := by omega
      rw [hp14, hz, hz2] at h14
      simp only [List.take_zero, List.append_nil] at h14
      have hm : '"' ∈ (hdr.drop i).take 14 := by
        rw [← h14]; decide
      exact hq (List.drop_subset i hdr (List.take_subset _ _ hm))
    · push_neg at hlen
      have hdu := congrArg (List.drop (hdr.drop i).length) hu
      rw [List.drop_append_eq_append_drop, List.drop_append_eq_append_drop]
        at hdu
      have hz : (hdr.drop i).length - pat.length = 0 := by
        rw [pat_length]; omega
      rw [hz, List.drop_zero, List.drop_length, Nat.sub_self,
        List.drop_zero, List.nil_append] at hdu
      have htk := congrArg (List.take (14 - (hdr.drop i).length)) hdu
      rw [List.take_append_eq_append_take] at htk
      have hfull : (pat.drop (hdr.drop i).length).take
          (14 - (hdr.drop i).length) = pat.drop (hdr.drop i).length := by
        apply List.take_of_length_le
        simp [pat_length]
      have hz3 : 14 - (hdr.drop i).length -
          (pat.drop (hdr.drop i).length).length = 0 := by
        simp [pat_length]
      rw [hfull, hz3] at htk
      simp only [List.take_zero, List.append_nil] at htk
      have hqmem : '"' ∈ pat.drop (hdr.drop i).length := by
        have hall : ∀ j, j < 14 → '"' ∈ pat.drop j := by decide
        exact hall _ hlen
      rw [htk] at hqmem
      have h13 : b.take (14 - (hdr.drop i).length) =
          (b.take 13).take (14 - (hdr.drop i).length) := by
        rw [List.take_take]
        congr 1
        omega
      rw [h13] at hqmem
      exact hb (List.take_subset _ _ hqmem)

/-- The first thirteen characters after the header of a flat file hold no
quote. -/
theorem take13_body (es : List Entry) :
    '"' ∉ ((es.map entryLine).flatten ++ closeTag).take 13 := by
  cases es with
  | nil => decide
  | cons e rest =>
    have h1 : (((e :: rest).map entryLine).flatten ++ closeTag) =
        spaces4 ++ (pat ++ (e.key ++ '"' :: '>' ::
          (e.val ++ closeStr ++ ['\n']) ++
          ((rest.map entryLine).flatten ++ closeTag))) := by
      simp [entryLine, List.append_assoc]
    rw [h1, List.take_append_eq_append_take,
      List.take_append_eq_append_take]
    intro hmem
    rcases List.mem_append.1 hmem with hm | hm
    · revert hm; decide
    · rcases List.mem_append.1 hm with hm2 | hm2
      · revert hm2
        have : (13 - spaces4.length) = 9 := by decide
        rw [this]
        decide
      · have hz : 13 - spaces4.length - pat.length = 0 := by decide
        rw [hz] at hm2
        simp at hm2

/-- Scanning a well-formed flat file yields exactly its keys: the
existing-key extraction of the text strategy agrees with the entry list
of the document. -/
theorem findKeys_flatFile (hdr : List Char) (es : List Entry)
    (hq : wfHdr hdr) (hes : wfTable es) :
    findKeys (flatFile hdr es) = es.map (·.key) := by
  rw [flatFile, List.append_assoc,
    findKeys_skip (h := hdr_no_match hdr _ hq.1 (take13_body es)),
    findKeys_entries es closeTag hes]
  have : findKeys closeTag = [] := by decide
  rw [this, List.append_nil]

/-! ### Structure of the replace-all write of the text strategy -/

theorem replaceAllFuel_nil (fuel : Nat) (p r : List Char) (hp : p ≠ []) :
    replaceAllFuel fuel [] p r = [] := by
  cases fuel with
  | zero => rfl
  | succ f =>
    rw [replaceAllFuel, isPrefixOf_nil p hp]
    simp

/-- Any sufficient fuel computes the same replacement. -/
theorem replaceAllFuel_irrel (n : Nat) :
    ∀ (cs : List Char) (fuel : Nat) (p r : List Char), p ≠ [] →
    cs.length ≤ n → cs.length ≤ fuel →
    replaceAllFuel fuel cs p r = replaceAllFuel cs.length cs p r := by
  induction n with
  | zero =>
    intro cs fuel p r hp h1 _
    have : cs = [] := List.eq_nil_of_length_eq_zero (by omega)
    subst this
    simp [replaceAllFuel_nil _ _ _ hp]
  | succ m ih =>
    intro cs fuel p r hp h1 h2
    cases cs with
    | nil => simp [replaceAllFuel_nil _ _ _ hp]
    | cons c tail =>
      obtain ⟨f, rfl⟩ : ∃ f, fuel = f + 1 :=
        ⟨fuel - 1, by simp at h2; omega⟩
      simp only [List.length_cons]
      rw [replaceAllFuel, replaceAllFuel]
      by_cases hpre : p.isPrefixOf (c :: tail) = true
      · simp only [hpre, if_true]
        obtain ⟨u, hu⟩ := (isPrefixOf_iff _ _).1 hpre
        have hUlen : ((c :: tail).drop p.length).length ≤ tail.length := by
          simp only [List.length_drop, List.length_cons]
          have : 1 ≤ p.length := by
            cases p with
            | nil => exact absurd rfl hp
            | cons x xs => simp
          omega
        simp only [List.length_cons] at h1 h2
        rw [ih _ f p r hp (by omega) (by omega),
          ih _ tail.length p r hp (by omega) (by omega)]
      · simp only [hpre]
        simp only [Bool.false_eq_true, if_false]
        simp only [List.length_cons] at h1 h2
        rw [ih tail f p r hp (by omega) (by omega)]

theorem replaceAll_nil (p r : List Char) (hp : p ≠ []) :
    replaceAll [] p r = [] :=
  replaceAllFuel_nil _ _ _ hp

/-- Walk: a non-matching position is copied. -/
theorem replaceAll_cons_none (c : Char) (cs p r : List Char) (_hp : p ≠ [])
    (h : p.isPrefixOf (c :: cs) = false) :
    replaceAll (c :: cs) p r = c :: replaceAll cs p r := by
  unfold replaceAll
  simp only [List.length_cons]
  rw [replaceAllFuel, h]
  simp

/-- Walk: a matching position is replaced and scanning resumes after the
pattern (the replacement is never rescanned). -/
theorem replaceAll_head (p t r : List Char) (hp : p ≠ []) :
    replaceAll (p ++ t) p r = r ++ replaceAll t p r := by
  cases hps : p ++ t with
  | nil =>
    have := congrArg List.length hps
    simp at this
    cases p with
    | nil => exact absurd rfl hp
    | cons x xs => simp at this
  | cons c cs =>
    unfold replaceAll
    rw [← hps]
    have hlen1 : 1 ≤ p.length := by
      cases p with
      | nil => exact absurd rfl hp
      | cons x xs => simp
    obtain ⟨f, hf⟩ : ∃ f, (p ++ t).length = f + 1 :=
      ⟨(p ++ t).length - 1, by simp; omega⟩
    rw [hf, replaceAllFuel.eq_def]
    dsimp only
    rw [isPrefixOf_append]
    simp only [if_true, List.drop_left]
    congr 1
    have hft : t.length ≤ f := by
      have := congrArg List.length hps
      simp only [List.length_append, List.length_cons] at hf
      omega
    exact replaceAllFuel_irrel t.length t f p r hp (le_refl _) hft

/-- Walk a chunk at whose positions the pattern never starts. -/
theorem replaceAll_skip (a b p r : List Char) (hp : p ≠ [])
    (h : ∀ i, i < a.length → p.isPrefixOf (a.drop i ++ b) = false) :
    replaceAll (a ++ b) p r = a ++ replaceAll b p r := by
  induction a with
  | nil => simp
  | cons c t ih =>
    have h0 := h 0 (by simp)
    simp only [List.drop_zero, List.cons_append] at h0
    rw [List.cons_append, replaceAll_cons_none _ _ _ _ hp h0]
    rw [ih (fun i hi => by
      have := h (i + 1) (by simpa using Nat.succ_lt_succ hi)
      simpa using this)]
    simp

/-- No occurrence of the closing resources tag starts inside the chunk,
whatever follows it. -/
def NoCloseStart (a : List Char) : Prop :=
  ∀ (i : Nat) (b : List Char), i < a.length →
    closeTag.isPrefixOf (a.drop i ++ b) = false

theorem ncs_append {a1 a2 : List Char} (h1 : NoCloseStart a1)
    (h2 : NoCloseStart a2) : NoCloseStart (a1 ++ a2) := by
  intro i b hi
  rw [List.drop_append_eq_append_drop]
  by_cases hia : i < a1.length
  · rw [List.append_assoc]
    exact h1 i _ hia
  · rw [List.drop_eq_nil_of_le (by omega)]
    simp only [List.nil_append]
    apply h2
    simp only [List.length_append] at hi
    omega

theorem ncs_of_all_ne (a : List Char) (h : ∀ c ∈ a, c ≠ '<') :
    NoCloseStart a := by
  intro i b hi
  cases hd : a.drop i with
  | nil =>
    have := congrArg List.length hd
    simp at this
    omega
  | cons c t =>
    have hc : c ∈ a := by
      have : c ∈ a.drop i := by rw [hd]; exact List.mem_cons_self c t
      exact List.drop_subset i a this
    rw [List.cons_append]
    show (('<' == c) && _) = false
    have : ('<' == c) = false := by
      simp only [beq_eq_false_iff_ne, ne_eq]
      exact fun h2 => (h c hc) h2.symm
    rw [this, Bool.false_and]

theorem ncs_cons (c : Char) (a : List Char)
    (hc : ∀ b, closeTag.isPrefixOf (c :: (a ++ b)) = false)
    (ha : NoCloseStart a) : NoCloseStart (c :: a) := by
  intro i b hi
  cases i with
  | zero => simpa using hc b
  | succ j =>
    have := ha j b (by simpa using hi)
    simpa using this

/-- No closing tag can start inside a serialized entry line. -/
theorem ncs_entry (e : Entry) (hk : '<' ∉ e.key) (hv : '<' ∉ e.val) :
    NoCloseStart (entryLine e) := by
  have he : entryLine e =
      spaces4 ++ ('<' :: ("string name=\"".toList ++
        (e.key ++ '"' :: '>' :: (e.val ++
          ('<' :: '/' :: ("string>".toList ++ ['\n'])))))) := by
    simp only [entryLine, closeStr, List.append_assoc]
    rfl
  rw [he]
  apply ncs_append (ncs_of_all_ne _ (by decide))
  apply ncs_cons
  · intro b
    show (('<' == '<') && (('/' == 's') && _)) = false
    simp
  apply ncs_append (ncs_of_all_ne _ (by decide))
  apply ncs_append (ncs_of_all_ne _ (fun c hc h2 => hk (h2 ▸ hc)))
  apply ncs_cons _ _ (fun b => by
    show (('<' == '"') && _) = false
    simp)
  apply ncs_cons _ _ (fun b => by
    show (('<' == '>') && _) = false
    simp)
  apply ncs_append (ncs_of_all_ne _ (fun c hc h2 => hv (h2 ▸ hc)))
  apply ncs_cons
  · intro b
    show (('<' == '<') && (('/' == '/') && (('r' == 's') && _))) = false
    simp
  apply ncs_cons _ _ (fun b => by
    show (('<' == '/') && _) = false
    simp)
  exact ncs_of_all_ne _ (by decide)

theorem ncs_body (es : List Entry) (hes : wfTable es) :
    NoCloseStart ((es.map entryLine).flatten) := by
  induction es with
  | nil => intro i b hi; simp at hi
  | cons e rest ih =>
    simp only [List.map_cons, List.flatten_cons]
    have he := hes e (List.mem_cons_self e rest)
    exact ncs_append (ncs_entry e he.1.2.2.1 he.2.1)
      (ih (fun x hx => hes x (List.mem_cons_of_mem e hx)))

/-- What may follow a header: the content after it starts with a space
(an indented entry line) or a lt (the closing tag). -/
def HeadSp (b : List Char) : Prop :=
  b.head? = some ' ' ∨ b.head? = some '<'

theorem head?_take (b : List Char) (n : Nat) (hn : 1 ≤ n) :
    (b.take n).head? = b.head? := by
  cases b with
  | nil => simp
  | cons x xs =>
    obtain ⟨m, rfl⟩ : ∃ m, n = m + 1 := ⟨n - 1, by omega⟩
    simp

/-- The closing tag never starts inside a slash-free header followed by
entry lines or the closing tag itself. -/
theorem hdr_no_close (hdr b : List Char) (hs : '/' ∉ hdr) (hb : HeadSp b) :
    ∀ i, i < hdr.length → closeTag.isPrefixOf (hdr.drop i ++ b) = false := by
  intro i hi
  cases hp : closeTag.isPrefixOf (hdr.drop i ++ b) with
  | false => rfl
  | true =>
    exfalso
    obtain ⟨u, hu⟩ := (isPrefixOf_iff _ _).1 hp
    have hAne : 1 ≤ (hdr.drop i).length := by
      simp only [List.length_drop]
      omega
    have hct : closeTag.length = 12 := rfl
    by_cases hlen : 12 ≤ (hdr.drop i).length
    · have h12 := congrArg (List.take 12) hu
      rw [List.take_append_eq_append_take, List.take_append_eq_append_take]
        at h12
      have hp12 : closeTag.take 12 = closeTag := by decide
      have hz : 12 - closeTag.length = 0 := by rw [hct]
      have hz2 : 12 - (hdr.drop i).length = 0 := by omega
      rw [hp12, hz, hz2] at h12
      simp only [List.take_zero, List.append_nil] at h12
      have hm : '/' ∈ (hdr.drop i).take 12 := by
        rw [← h12]; decide
      exact hs (List.drop_subset i hdr (List.take_subset _ _ hm))
    · push_neg at hlen
      have hdu := congrArg (List.drop (hdr.drop i).length) hu
      rw [List.drop_append_eq_append_drop, List.drop_append_eq_append_drop]
        at hdu
      have hz : (hdr.drop i).length - closeTag.length = 0 := by
        rw [hct]; omega
      rw [hz, List.drop_zero, List.drop_length, Nat.sub_self,
        List.drop_zero, List.nil_append] at hdu
      have hne : closeTag.drop (hdr.drop i).length ≠ [] := by
        intro h0
        have h1 := congrArg List.length h0
        rw [List.length_drop, hct] at h1
        simp only [List.length_nil] at h1
        omega
      cases hd : closeTag.drop (hdr.drop i).length with
      | nil => exact hne hd
      | cons c0 cs0 =>
        rw [hd, List.cons_append] at hdu
        have hbh : b.head? = some c0 := by rw [← hdu]; rfl
        have hfact : ∀ j, 1 ≤ j → j < 12 →
            (closeTag.drop j).head? ≠ some ' ' ∧
            (closeTag.drop j).head? ≠ some '<' := by decide
        have hh := hfact (hdr.drop i).length hAne hlen
        rw [hd] at hh
        simp only [List.head?_cons] at hh
        rcases hb with h1 | h1 <;> rw [hbh] at h1
        · exact hh.1 h1
        · exact hh.2 h1

/-- The replace-all of the text strategy on a well-formed flat file
rewrites exactly the final closing tag. -/
theorem replaceAll_flatFile (hdr : List Char) (es : List Entry)
    (r : List Char) (hq : wfHdr hdr) (hes : wfTable es) :
    replaceAll (flatFile hdr es) closeTag r =
      hdr ++ (es.map entryLine).flatten ++ r := by
  have hct : closeTag ≠ [] := by decide
  have hHead : HeadSp ((es.map entryLine).flatten ++ closeTag) := by
    cases es with
    | nil => right; rfl
    | cons e rest =>
      left
      simp only [List.map_cons, List.flatten_cons, List.append_assoc]
      rfl
  rw [flatFile, List.append_assoc,
    replaceAll_skip _ _ _ _ hct (hdr_no_close hdr _ hq.2 hHead),
    replaceAll_skip _ _ _ _ hct
      (fun i hi => ncs_body es hes i closeTag hi)]
  have hclose : replaceAll closeTag closeTag r = r := by
    have := replaceAll_head closeTag [] r hct
    simpa [replaceAll_nil _ _ hct] using this
  rw [hclose, List.append_assoc]

/-! ### Parser adequacy on serialized flat files -/

theorem splitLines_append_nl (a b : List Char) (h : '\n' ∉ a) :
    splitLines (a ++ '\n' :: b) = a :: splitLines b := by
  induction a with
  | nil => simp [splitLines]
  | cons c cs ih =>
    simp only [List.mem_cons, not_or] at h
    have hc : ¬ c = '\n' := fun h2 => h.1 h2.symm
    rw [List.cons_append, splitLines]
    simp only [hc, if_false, ih h.2]

theorem splitLines_no_nl (a : List Char) (h : '\n' ∉ a) :
    splitLines a = [a] := by
  induction a with
  | nil => rfl
  | cons c cs ih =>
    simp only [List.mem_cons, not_or] at h
    have hc : ¬ c = '\n' := fun h2 => h.1 h2.symm
    rw [splitLines]
    simp only [hc, if_false, ih h.2]

/-- The entry line without its trailing newline. -/
def bodyLine (e : Entry) : List Char :=
  spaces4 ++ pat ++ e.key ++ '"' :: '>' :: (e.val ++ closeStr)

theorem entryLine_eq (e : Entry) : entryLine e = bodyLine e ++ ['\n'] := by
  simp [entryLine, bodyLine, List.append_assoc]

theorem trimR_last (x : List Char) (c : Char) (hc : isWs c = false) :
    trimR (x ++ [c]) = x ++ [c] := by
  rw [trimR, List.reverse_append]
  simp only [List.reverse_cons, List.reverse_nil, List.nil_append,
    List.cons_append, List.dropWhile_cons, hc]
  simp

theorem trim_bodyLine (e : Entry) :
    trim (bodyLine e) =
      pat ++ (e.key ++ '"' :: '>' :: (e.val ++ closeStr)) := by
  have h1 : trimL (bodyLine e) =
      pat ++ (e.key ++ '"' :: '>' :: (e.val ++ closeStr)) := by
    have hb : bodyLine e =
        ' ' :: ' ' :: ' ' :: ' ' ::
          ('<' :: ("string name=\"".toList ++
            (e.key ++ '"' :: '>' :: (e.val ++ closeStr)))) := by
      simp only [bodyLine, List.append_assoc]
      rfl
    rw [hb, trimL]
    have hsp : isWs ' ' = true := by decide
    have hlt : isWs '<' = false := by decide
    simp [List.dropWhile_cons, hsp, hlt]
    rfl
  have h2 : pat ++ (e.key ++ '"' :: '>' :: (e.val ++ closeStr)) =
      (pat ++ (e.key ++ '"' :: '>' :: (e.val ++ "</string".toList))) ++
        ['>'] := by
    have : closeStr = "</string".toList ++ ['>'] := rfl
    rw [this]
    simp [List.append_assoc]
  rw [trim, h1, h2, trimR_last _ '>' (by decide)]

theorem parseEntryLine_bodyLine (e : Entry) (hk : '"' ∉ e.key)
    (hne : e.key ≠ []) (hv : '<' ∉ e.val) :
    parseEntryLine (bodyLine e) = some e := by
  rw [parseEntryLine]
  dsimp only
  rw [trim_bodyLine e, isPrefixOf_append]
  simp only [if_true, List.drop_left]
  rw [takeWhile_bne_append '"' e.key _ hk,
    dropWhile_bne_append '"' e.key _ hk]
  simp only [List.dropWhile_cons]
  norm_num
  have hcs : e.val ++ closeStr =
      e.val ++ '<' :: "/string>".toList := rfl
  rw [hcs, takeWhile_bne_append '<' e.val _ hv,
    dropWhile_bne_append '<' e.val _ hv]
  simp [hne]
  decide

theorem trim_closeTag : trim closeTag = closeTag := by decide

theorem trim_bodyLine_ne_close (e : Entry) : ¬ trim (bodyLine e) = closeTag := by
  rw [trim_bodyLine]
  intro h
  have : pat ++ (e.key ++ '"' :: '>' :: (e.val ++ closeStr)) =
      '<' :: ('s' :: ("tring name=\"".toList ++
        (e.key ++ '"' :: '>' :: (e.val ++ closeStr)))) := rfl
  rw [this] at h
  have h2 : closeTag = '<' :: '/' :: "resources>".toList := rfl
  rw [h2] at h
  simp at h

theorem trim_bodyLine_ne_nil (e : Entry) : ¬ trim (bodyLine e) = [] := by
  rw [trim_bodyLine]
  intro h
  have : pat ++ (e.key ++ '"' :: '>' :: (e.val ++ closeStr)) =
      '<' :: ("string name=\"".toList ++
        (e.key ++ '"' :: '>' :: (e.val ++ closeStr))) := rfl
  rw [this] at h
  simp at h

theorem parseLinesAux_adequate (es : List Entry) (hes : wfTable es) :
    parseLinesAux (es.map bodyLine ++ [closeTag]) = some es := by
  induction es with
  | nil =>
    rw [List.map_nil, List.nil_append, parseLinesAux]
    simp [trim_closeTag]
  | cons e rest ih =>
    have he := hes e (List.mem_cons_self e rest)
    rw [List.map_cons, List.cons_append, parseLinesAux]
    simp only [trim_bodyLine_ne_close e, if_false,
      trim_bodyLine_ne_nil e,
      parseEntryLine_bodyLine e he.1.2.1 he.1.1 he.2.1,
      ih (fun x hx => hes x (List.mem_cons_of_mem e hx))]

theorem splitLines_body (es : List Entry) (hes : wfTable es) :
    splitLines ((es.map entryLine).flatten ++ closeTag) =
      es.map bodyLine ++ [closeTag] := by
  induction es with
  | nil =>
    simp only [List.map_nil, List.flatten_nil, List.nil_append]
    exact splitLines_no_nl closeTag (by decide)
  | cons e rest ih =>
    have he := hes e (List.mem_cons_self e rest)
    have hb : '\n' ∉ bodyLine e := by
      intro hmem
      simp only [bodyLine, List.append_assoc, List.mem_append,
        List.mem_cons] at hmem
      have h1 : '\n' ∉ spaces4 := by decide
      have h2 : '\n' ∉ pat := by decide
      have h3 : '\n' ∉ closeStr := by decide
      have h4 : '\n' ∈ e.key → False := fun h => he.1.2.2.2 h
      have h5 : '\n' ∈ e.val → False := fun h => he.2.2 h
      have h6 : ¬ ('\n' = '"') := by decide
      have h7 : ¬ ('\n' = '>') := by decide
      tauto
    simp only [List.map_cons, List.flatten_cons, List.append_assoc]
    rw [entryLine_eq e, List.append_assoc]
    simp only [List.cons_append, List.nil_append]
    rw [splitLines_append_nl _ _ hb,
      ih (fun x hx => hes x (List.mem_cons_of_mem e hx))]

/-- Parsing a serialized flat file recovers exactly its entries. -/
theorem parseXml_flatFile (es : List Entry) (hes : wfTable es) :
    parseXml (flatFile canonHdr es) = some es := by
  have hsplit : splitLines (flatFile canonHdr es) =
      xmlDecl :: resOpen :: (es.map bodyLine ++ [closeTag]) := by
    have hshape : flatFile canonHdr es =
        xmlDecl ++ '\n' :: (resOpen ++ '\n' ::
          ((es.map entryLine).flatten ++ closeTag)) := by
      simp [flatFile, canonHdr, List.append_assoc]
    rw [hshape, splitLines_append_nl _ _ (by decide),
      splitLines_append_nl _ _ (by decide), splitLines_body es hes]
  rw [parseXml]
  rw [hsplit]
  have hdecl : declHead.isPrefixOf xmlDecl = true := by decide
  simp only [hdecl, if_true]
  have hres : trim resOpen = resOpen := by decide
  simp only [hres, if_pos rfl]
  exact parseLinesAux_adequate es hes

/-! ### Characterization of the per-file merges on well-formed input -/

theorem plan_eq_nil_iff (ex : List (List Char)) (ts : List Entry) :
    plan ex ts = [] ↔ ∀ e ∈ ts, e.key ∈ ex := by
  rw [plan, List.filter_eq_nil_iff]
  constructor
  · intro h e he
    have := h e he
    simp at this
    exact this
  · intro h e he
    simp
    exact h e he

theorem all_subset_iff (ex : List (List Char)) (ts : List Entry) :
    (ts.all (fun e => decide (e.key ∈ ex)) = true) ↔ ∀ e ∈ ts, e.key ∈ ex := by
  rw [List.all_eq_true]
  constructor
  · intro h e he
    have := h e he
    simpa using this
  · intro h e he
    simpa using h e he

/-- The closing tag occurs in every flat file. -/
theorem findSub_flatFile_isSome (hdr : List Char) (es : List Entry) :
    (findSub (flatFile hdr es) closeTag).isSome = true := by
  rw [findSub_isSome_iff]
  exact ⟨hdr ++ (es.map entryLine).flatten, [],
    by simp [flatFile, List.append_assoc]⟩

/-- The text-strategy merge on a well-formed flat file: no write when
nothing is missing, else the planned lines are spliced in before the
closing tag. -/
theorem mergeSecurity_flatFile (hdr : List Char) (es ts : List Entry)
    (hq : wfHdr hdr) (hes : wfTable es) :
    mergeSecurity ts (flatFile hdr es) =
      if plan (es.map (·.key)) ts = [] then (flatFile hdr es, .noop)
      else (flatFile hdr (es ++ plan (es.map (·.key)) ts),
        .added (plan (es.map (·.key)) ts).length) := by
  rw [mergeSecurity]
  rw [findKeys_flatFile hdr es hq hes]
  by_cases hpl : plan (es.map (·.key)) ts = []
  · simp [hpl]
  · simp only [hpl, if_neg hpl, if_false]
    rw [if_pos (findSub_flatFile_isSome hdr es)]
    rw [replaceAll_flatFile hdr es _ hq hes]
    simp [flatFile, List.append_assoc]

/-- The structured-strategy merge on parseable input: no write when the
candidate keys are covered, else the missing entries are appended and the
whole tree re-serialized. -/
theorem mergeXml_char (ts : List Entry) (s : List Char) (es : List Entry)
    (h : parseXml s = some es) :
    mergeXml ts s =
      if plan (es.map (·.key)) ts = [] then (s, .noop)
      else (serializeXml (es ++ plan (es.map (·.key)) ts),
        .added (plan (es.map (·.key)) ts).length) := by
  rw [mergeXml, h]
  dsimp only
  by_cases hall : ts.all (fun e => decide (e.key ∈ es.map (·.key))) = true
  · have hpl : plan (es.map (·.key)) ts = [] :=
      (plan_eq_nil_iff _ _).2 ((all_subset_iff _ _).1 hall)
    simp only [hall, if_true, hpl, if_pos rfl]
  · have hpl : ¬ plan (es.map (·.key)) ts = [] := by
      intro hc
      exact hall ((all_subset_iff _ _).2 ((plan_eq_nil_iff _ _).1 hc))
    have hallf : ts.all (fun e => decide (e.key ∈ es.map (·.key))) = false :=
      Bool.eq_false_iff.2 hall
    have hpl2 : ¬ ts.filter
        (fun e => decide (e.key ∉ es.map (·.key))) = [] := by
      simpa [plan] using hpl
    simp only [hallf, Bool.false_eq_true, if_false, plan, if_neg hpl2]

/-! ### Idempotence helpers -/

theorem wfTable_append {es ts : List Entry} (h1 : wfTable es)
    (h2 : wfTable ts) : wfTable (es ++ ts) := by
  intro e he
  rcases List.mem_append.1 he with h | h
  · exact h1 e h
  · exact h2 e h

theorem wfTable_plan {ex : List (List Char)} {ts : List Entry}
    (h : wfTable ts) : wfTable (plan ex ts) := by
  intro e he
  exact h e (List.mem_of_mem_filter he)

/-- After one merge, every candidate key is present. -/
theorem plan_covers (es ts : List Entry) :
    ∀ e ∈ ts, e.key ∈
      (es.map (·.key) ++ (plan (es.map (·.key)) ts).map (·.key)) := by
  intro e he
  rw [List.mem_append]
  by_cases hk : e.key ∈ es.map (·.key)
  · exact Or.inl hk
  · refine Or.inr (List.mem_map.2 ⟨e, ?_, rfl⟩)
    rw [plan, List.mem_filter]
    exact ⟨he, by simpa using hk⟩

/-- The plan against the merged key set is empty. -/
theorem plan_after (es ts : List Entry) :
    plan ((es ++ plan (es.map (·.key)) ts).map (·.key)) ts = [] := by
  rw [plan_eq_nil_iff]
  intro e he
  have := plan_covers es ts e he
  simpa using this

/-- The wifi block contains the sentinel substring. -/
theorem wifiBlock_sentinel (t : WifiTrans) :
    ∃ a b, wifiBlock t = a ++ sentinelW ++ b := by
  refine ⟨"\n\n    <string name=\"".toList,
    "\">".toList ++ (t.banner ++ closeStr ++
      '\n' :: spaces4 ++ "<string name=\"ai_wifi_only_override_button\">".toList ++
      t.button ++ closeStr ++
      '\n' :: spaces4 ++ "<string name=\"ai_wifi_required_hint\">".toList ++
      t.hint ++ closeStr ++ ['\n']), ?_⟩
  simp only [wifiBlock, List.append_assoc]
  rfl

/-- Both splice branches of the wifi insertion leave the sentinel in the
file. -/
theorem insertWifi_sentinel (t : WifiTrans) (s : List Char)
    (markerPos : Nat) :
    (findSub (insertWifi t s markerPos) sentinelW).isSome = true := by
  obtain ⟨a, b, hab⟩ := wifiBlock_sentinel t
  rw [insertWifi]
  rw [findSub_isSome_iff]
  cases h : findSubFrom s ['\n']
      (match findSubFrom s closeStr markerPos with
       | some i => i + closeStr.length
       | none => 8) with
  | some n =>
    exact ⟨s.take n ++ a, b ++ s.drop n, by simp [hab, List.append_assoc]⟩
  | none =>
    exact ⟨s.dropLast ++ a, b ++ (s.getLast?.map ([·])).getD [], by
      simp [hab, List.append_assoc]⟩

/-- Running the wifi merge on its own output never writes again. -/
theorem mergeWifi_idem (t : WifiTrans) (s : List Char) :
    (mergeWifi t (mergeWifi t s).1).1 = (mergeWifi t s).1 ∧
      ∀ n, (mergeWifi t (mergeWifi t s).1).2 ≠ .added n := by
  by_cases hsent : (findSub s sentinelW).isSome = true
  · have h1 : mergeWifi t s = (s, .noop) := by
      rw [mergeWifi, if_pos hsent]
    simp [h1]
  · cases hm : findSub s markerW with
    | none =>
      have h1 : mergeWifi t s = (s, .anchorNotFound) := by
        rw [mergeWifi, if_neg hsent, hm]
      simp [h1]
    | some mp =>
      have h1 : mergeWifi t s = (insertWifi t s mp, .added 3) := by
        rw [mergeWifi, if_neg hsent, hm]
      have h2 : mergeWifi t (insertWifi t s mp) =
          (insertWifi t s mp, .noop) := by
        rw [mergeWifi, if_pos (insertWifi_sentinel t s mp)]
      simp [h1, h2]

/-- The text-strategy merge is idempotent on well-formed flat files. -/
theorem mergeSecurity_idem (hdr : List Char) (es ts : List Entry)
    (hq : wfHdr hdr) (hes : wfTable es) (hts : wfTable ts) :
    mergeSecurity ts (mergeSecurity ts (flatFile hdr es)).1 =
      ((mergeSecurity ts (flatFile hdr es)).1, .noop) := by
  by_cases hpl : plan (es.map (·.key)) ts = []
  · have h1 : mergeSecurity ts (flatFile hdr es) = (flatFile hdr es, .noop) := by
      rw [mergeSecurity_flatFile hdr es ts hq hes]
      simp [hpl]
    simp [h1]
  · have hes2 : wfTable (es ++ plan (es.map (·.key)) ts) :=
      wfTable_append hes (wfTable_plan hts)
    have h1 : mergeSecurity ts (flatFile hdr es) =
        (flatFile hdr (es ++ plan (es.map (·.key)) ts),
          .added (plan (es.map (·.key)) ts).length) := by
      rw [mergeSecurity_flatFile hdr es ts hq hes]
      simp [hpl]
    have hafter : plan (es.map (·.key) ++
        (plan (es.map (·.key)) ts).map (·.key)) ts = [] := by
      have := plan_after es ts
      simpa using this
    have h2 : mergeSecurity ts
        (flatFile hdr (es ++ plan (es.map (·.key)) ts)) =
        (flatFile hdr (es ++ plan (es.map (·.key)) ts), .noop) := by
      rw [mergeSecurity_flatFile hdr _ ts hq hes2]
      simp [hafter]
    simp [h1, h2]

/-- The structured-strategy merge is idempotent on parseable input with
well-formed entries. -/
theorem mergeXml_idem (ts : List Entry) (s : List Char) (es : List Entry)
    (h : parseXml s = some es) (hes : wfTable es) (hts : wfTable ts) :
    mergeXml ts (mergeXml ts s).1 = ((mergeXml ts s).1, .noop) := by
  by_cases hpl : plan (es.map (·.key)) ts = []
  · have h1 : mergeXml ts s = (s, .noop) := by
      rw [mergeXml_char ts s es h]
      simp [hpl]
    simp [h1]
  · have hes2 : wfTable (es ++ plan (es.map (·.key)) ts) :=
      wfTable_append hes (wfTable_plan hts)
    have h1 : mergeXml ts s =
        (serializeXml (es ++ plan (es.map (·.key)) ts),
          .added (plan (es.map (·.key)) ts).length) := by
      rw [mergeXml_char ts s es h]
      simp [hpl]
    have hparse2 : parseXml (serializeXml
        (es ++ plan (es.map (·.key)) ts)) =
        some (es ++ plan (es.map (·.key)) ts) :=
      parseXml_flatFile _ hes2
    have hafter : plan (es.map (·.key) ++
        (plan (es.map (·.key)) ts).map (·.key)) ts = [] := by
      have := plan_after es ts
      simpa using this
    have h2 : mergeXml ts (serializeXml (es ++ plan (es.map (·.key)) ts)) =
        (serializeXml (es ++ plan (es.map (·.key)) ts), .noop) := by
      rw [mergeXml_char ts _ _ hparse2]
      simp [hafter]
    simp [h1, h2]

/-! ### The claims -/

/-- Claim C2.  The merge is idempotent: in all three scripts, running the merge
a second time with the same candidate table on the file produced by the
first run performs no write and leaves the content of the first run
unchanged; and when the filtered entry list is empty the file is not
rewritten at all.  (Structured strategy on parseable files with
well-formed entries; text strategy on well-formed flat files; wifi merge
on arbitrary content.) -/
theorem claim_C2 :
    (∀ (ts : List Entry) (s : List Char) (es : List Entry),
      parseXml s = some es → wfTable es → wfTable ts →
      mergeXml ts (mergeXml ts s).1 = ((mergeXml ts s).1, .noop)) ∧
    (∀ (hdr : List Char) (es ts : List Entry),
      wfHdr hdr → wfTable es → wfTable ts →
      mergeSecurity ts (mergeSecurity ts (flatFile hdr es)).1 =
        ((mergeSecurity ts (flatFile hdr es)).1, .noop)) ∧
    (∀ (t : WifiTrans) (s : List Char),
      (mergeWifi t (mergeWifi t s).1).1 = (mergeWifi t s).1 ∧
      ∀ n, (mergeWifi t (mergeWifi t s).1).2 ≠ .added n) ∧
    (∀ (ts : List Entry) (s : List Char) (es : List Entry),
      parseXml s = some es → plan (es.map (·.key)) ts = [] →
      mergeXml ts s = (s, .noop)) ∧
    (∀ (ts : List Entry) (s : List Char),
      plan (findKeys s) ts = [] → mergeSecurity ts s = (s, .noop)) := by
  refine ⟨fun ts s es h hes hts => mergeXml_idem ts s es h hes hts,
    fun hdr es ts hq hes hts => mergeSecurity_idem hdr es ts hq hes hts,
    fun t s => mergeWifi_idem t s,
    fun ts s es h hpl => ?_,
    fun ts s hpl => ?_⟩
  · rw [mergeXml_char ts s es h]
    simp [hpl]
  · rw [mergeSecurity]
    simp [hpl]

/-- Witness for C2 at a concrete file and table: a one-entry resource
file merged with a two-entry table, for each of the three scripts. -/
theorem claim_C2_witness :
    (mergeXml
      [⟨"a".toList, "x".toList⟩, ⟨"b".toList, "y".toList⟩]
      (mergeXml [⟨"a".toList, "x".toList⟩, ⟨"b".toList, "y".toList⟩]
        "<?xml version='1.0' encoding='utf-8'?>\n<resources>\n    <string name=\"a\">x</string>\n</resources>".toList).1 =
     ((mergeXml [⟨"a".toList, "x".toList⟩, ⟨"b".toList, "y".toList⟩]
        "<?xml version='1.0' encoding='utf-8'?>\n<resources>\n    <string name=\"a\">x</string>\n</resources>".toList).1, .noop)) ∧
    (mergeSecurity
      [⟨"a".toList, "x".toList⟩, ⟨"b".toList, "y".toList⟩]
      (mergeSecurity [⟨"a".toList, "x".toList⟩, ⟨"b".toList, "y".toList⟩]
        (flatFile "<?xml version='1.0' encoding='utf-8'?>\n<resources>\n".toList
          [⟨"a".toList, "x".toList⟩])).1 =
     ((mergeSecurity [⟨"a".toList, "x".toList⟩, ⟨"b".toList, "y".toList⟩]
        (flatFile "<?xml version='1.0' encoding='utf-8'?>\n<resources>\n".toList
          [⟨"a".toList, "x".toList⟩])).1, .noop)) ∧
    ((mergeWifi ⟨"B".toList, "U".toList, "H".toList⟩
      (mergeWifi ⟨"B".toList, "U".toList, "H".toList⟩
        "<resources>\n    <string name=\"premium_settings_new_tags_desc\">v</string>\n</resources>".toList).1).1 =
     (mergeWifi ⟨"B".toList, "U".toList, "H".toList⟩
        "<resources>\n    <string name=\"premium_settings_new_tags_desc\">v</string>\n</resources>".toList).1) := by
  refine ⟨claim_C2.1 _ _ [⟨"a".toList, "x".toList⟩] (by decide) (by decide)
    (by decide), claim_C2.2.1 _ [⟨"a".toList, "x".toList⟩] _ (by decide)
    (by decide) (by decide), (claim_C2.2.2.1 _ _).1⟩

/-- Claim C1, counterexample.  The wifi merge guards only on the sentinel
substring: a file that already declares ai_wifi_required_hint (but not
the banner key) gets all three entries inserted, so an entry whose key is
already present is inserted again and afterwards that key is declared
twice.  This refutes the claim that every one of the three merges inserts
exactly the missing subsequence. -/
theorem claim_C1_counterexample :
    "ai_wifi_required_hint".toList ∈ findKeys
      "<resources>\n    <string name=\"ai_wifi_required_hint\">old</string>\n    <string name=\"premium_settings_new_tags_desc\">v</string>\n</resources>".toList ∧
    (mergeWifi ⟨"B".toList, "U".toList, "H".toList⟩
      "<resources>\n    <string name=\"ai_wifi_required_hint\">old</string>\n    <string name=\"premium_settings_new_tags_desc\">v</string>\n</resources>".toList).2 =
      .added 3 ∧
    List.count "ai_wifi_required_hint".toList
      (findKeys (mergeWifi ⟨"B".toList, "U".toList, "H".toList⟩
        "<resources>\n    <string name=\"ai_wifi_required_hint\">old</string>\n    <string name=\"premium_settings_new_tags_desc\">v</string>\n</resources>".toList).1) = 2 := by
  decide

/-- Claim C1, amended.  The 2fa and security merges insert exactly the
order-preserving subsequence of candidate entries whose key is absent
from the computed existing key set (the planner is a filter: a sublist of
the candidates containing precisely the missing ones); the wifi merge is
all-or-nothing on the sentinel key: it inserts nothing when the sentinel
substring is present and otherwise inserts the whole three-entry block
after the anchor, regardless of which keys are present. -/
theorem claim_C1 :
    (∀ (ex : List (List Char)) (ts : List Entry),
      List.Sublist (plan ex ts) ts ∧ (∀ e ∈ plan ex ts, e.key ∉ ex) ∧
      (∀ e ∈ ts, e.key ∉ ex → e ∈ plan ex ts)) ∧
    (∀ (ts : List Entry) (s : List Char) (es : List Entry),
      parseXml s = some es →
      mergeXml ts s =
        if plan (es.map (·.key)) ts = [] then (s, .noop)
        else (serializeXml (es ++ plan (es.map (·.key)) ts),
          .added (plan (es.map (·.key)) ts).length)) ∧
    (∀ (hdr : List Char) (es ts : List Entry), wfHdr hdr → wfTable es →
      mergeSecurity ts (flatFile hdr es) =
        if plan (es.map (·.key)) ts = [] then (flatFile hdr es, .noop)
        else (flatFile hdr (es ++ plan (es.map (·.key)) ts),
          .added (plan (es.map (·.key)) ts).length)) ∧
    (∀ (t : WifiTrans) (s : List Char),
      ((findSub s sentinelW).isSome = true → mergeWifi t s = (s, .noop)) ∧
      ((findSub s sentinelW).isSome = false →
        ∀ mp, findSub s markerW = some mp →
        mergeWifi t s = (insertWifi t s mp, .added 3))) := by
  refine ⟨fun ex ts => ⟨List.filter_sublist ts, fun e he => ?_,
      fun e he hk => ?_⟩,
    fun ts s es h => mergeXml_char ts s es h,
    fun hdr es ts hq hes => mergeSecurity_flatFile hdr es ts hq hes,
    fun t s => ⟨fun hsent => by rw [mergeWifi, if_pos hsent],
      fun hsent mp hmp => by
        rw [mergeWifi, if_neg (by simp [hsent]), hmp]⟩⟩
  · have := (List.mem_filter.1 he).2
    simpa using this
  · exact List.mem_filter.2 ⟨he, by simpa using hk⟩

/-- Witness for C1 at concrete inputs: the planner on a two-entry table
with one existing key, the structured merge on a one-entry file, the text
merge on a one-entry flat file, and the wifi merge on a file with and
without the sentinel. -/
theorem claim_C1_witness :
    (List.Sublist
        (plan ["a".toList] [⟨"a".toList, "x".toList⟩, ⟨"b".toList, "y".toList⟩])
        [⟨"a".toList, "x".toList⟩, ⟨"b".toList, "y".toList⟩] ∧
      (∀ e ∈ plan ["a".toList]
        [⟨"a".toList, "x".toList⟩, ⟨"b".toList, "y".toList⟩],
        e.key ∉ ["a".toList]) ∧
      (∀ e ∈ [⟨"a".toList, "x".toList⟩, ⟨"b".toList, "y".toList⟩],
        e.key ∉ ["a".toList] → e ∈ plan ["a".toList]
          [⟨"a".toList, "x".toList⟩, ⟨"b".toList, "y".toList⟩])) ∧
    (mergeXml [⟨"b".toList, "y".toList⟩]
      "<resources>\n    <string name=\"a\">x</string>\n</resources>".toList =
      if plan (([⟨"a".toList, "x".toList⟩] : List Entry).map (·.key))
          [⟨"b".toList, "y".toList⟩] = []
      then ("<resources>\n    <string name=\"a\">x</string>\n</resources>".toList, .noop)
      else (serializeXml ([⟨"a".toList, "x".toList⟩] ++
        plan (([⟨"a".toList, "x".toList⟩] : List Entry).map (·.key))
          [⟨"b".toList, "y".toList⟩]),
        .added (plan (([⟨"a".toList, "x".toList⟩] : List Entry).map (·.key))
          [⟨"b".toList, "y".toList⟩]).length)) ∧
    (∀ (t : WifiTrans) (s : List Char),
      ((findSub s sentinelW).isSome = true → mergeWifi t s = (s, .noop)) ∧
      ((findSub s sentinelW).isSome = false →
        ∀ mp, findSub s markerW = some mp →
        mergeWifi t s = (insertWifi t s mp, .added 3))) :=
  ⟨claim_C1.1 ["a".toList] [⟨"a".toList, "x".toList⟩, ⟨"b".toList, "y".toList⟩],
   claim_C1.2.1 [⟨"b".toList, "y".toList⟩] _ [⟨"a".toList, "x".toList⟩]
     (by decide),
   claim_C1.2.2.2⟩

/-- Claim C6, counterexample.  In the text strategy the all-present check runs
before the anchor check: a file without the closing resources tag whose
keys already cover the candidate table yields the no-op outcome, not
AnchorNotFound, refuting the claim that the operation always fails with
AnchorNotFound when the anchor is absent.  (The file is unchanged either
way.) -/
theorem claim_C6_counterexample :
    (findSub "<string name=\"k1\">v</string>".toList closeTag).isSome
      = false ∧
    mergeSecurity [⟨"k1".toList, "w".toList⟩]
      "<string name=\"k1\">v</string>".toList =
      ("<string name=\"k1\">v</string>".toList, .noop) ∧
    Outcome.noop ≠ Outcome.anchorNotFound := by
  refine ⟨by decide, by decide, by decide⟩

/-- Claim C6, amended.  When the anchor literal is absent the text-strategy
operations never write and never insert anywhere: the content is returned
unchanged, the outcome is AnchorNotFound whenever there is something to
insert (security: a nonempty filtered list; wifi: sentinel absent), and
the no-op outcome otherwise. -/
theorem claim_C6 :
    (∀ (ts : List Entry) (s : List Char),
      (findSub s closeTag).isSome = false →
      (mergeSecurity ts s).1 = s ∧
      ((mergeSecurity ts s).2 = .anchorNotFound ∨
        (mergeSecurity ts s).2 = .noop) ∧
      (plan (findKeys s) ts ≠ [] →
        mergeSecurity ts s = (s, .anchorNotFound))) ∧
    (∀ (t : WifiTrans) (s : List Char),
      findSub s markerW = none →
      (mergeWifi t s).1 = s ∧
      ((mergeWifi t s).2 = .anchorNotFound ∨ (mergeWifi t s).2 = .noop) ∧
      ((findSub s sentinelW).isSome = false →
        mergeWifi t s = (s, .anchorNotFound))) := by
  constructor
  · intro ts s hanchor
    by_cases hpl : plan (findKeys s) ts = []
    · have h1 : mergeSecurity ts s = (s, .noop) := by
        rw [mergeSecurity]
        simp [hpl]
      simp [h1, hpl]
    · have h1 : mergeSecurity ts s = (s, .anchorNotFound) := by
        rw [mergeSecurity]
        simp only [hpl, if_neg hpl, hanchor, Bool.false_eq_true, if_false]
      simp [h1, hpl]
  · intro t s hm
    by_cases hsent : (findSub s sentinelW).isSome = true
    · have h1 : mergeWifi t s = (s, .noop) := by
        rw [mergeWifi, if_pos hsent]
      simp [h1, hsent]
    · have h1 : mergeWifi t s = (s, .anchorNotFound) := by
        rw [mergeWifi, if_neg hsent, hm]
      simp [h1]

/-- Witness for C6: a file with no closing tag and a missing candidate
key, and a wifi file without the anchor line. -/
theorem claim_C6_witness :
    ((mergeSecurity [⟨"k2".toList, "w".toList⟩]
        "<string name=\"k1\">v</string>".toList).1 =
      "<string name=\"k1\">v</string>".toList ∧
      ((mergeSecurity [⟨"k2".toList, "w".toList⟩]
        "<string name=\"k1\">v</string>".toList).2 = .anchorNotFound ∨
       (mergeSecurity [⟨"k2".toList, "w".toList⟩]
        "<string name=\"k1\">v</string>".toList).2 = .noop) ∧
      (plan (findKeys "<string name=\"k1\">v</string>".toList)
          [⟨"k2".toList, "w".toList⟩] ≠ [] →
        mergeSecurity [⟨"k2".toList, "w".toList⟩]
          "<string name=\"k1\">v</string>".toList =
          ("<string name=\"k1\">v</string>".toList, .anchorNotFound))) ∧
    ((mergeWifi ⟨"B".toList, "U".toList, "H".toList⟩
        "<resources>\n</resources>".toList).1 =
      "<resources>\n</resources>".toList ∧
      ((mergeWifi ⟨"B".toList, "U".toList, "H".toList⟩
        "<resources>\n</resources>".toList).2 = .anchorNotFound ∨
       (mergeWifi ⟨"B".toList, "U".toList, "H".toList⟩
        "<resources>\n</resources>".toList).2 = .noop) ∧
      ((findSub "<resources>\n</resources>".toList sentinelW).isSome
          = false →
        mergeWifi ⟨"B".toList, "U".toList, "H".toList⟩
          "<resources>\n</resources>".toList =
          ("<resources>\n</resources>".toList, .anchorNotFound))) :=
  ⟨claim_C6.1 [⟨"k2".toList, "w".toList⟩]
      "<string name=\"k1\">v</string>".toList (by decide),
   claim_C6.2 ⟨"B".toList, "U".toList, "H".toList⟩
      "<resources>\n</resources>".toList (by decide)⟩

/-- The association of keys to values in a document, first declaration
wins (ElementTree iteration order and reader semantics alike). -/
def valueOf : List Entry → List Char → Option (List Char)
  | [], _ => none
  | e :: es, k => if e.key = k then some e.val else valueOf es k

theorem valueOf_append_left (es f : List Entry) (k : List Char)
    (h : k ∈ es.map (·.key)) : valueOf (es ++ f) k = valueOf es k := by
  induction es with
  | nil => simp at h
  | cons e rest ih =>
    rw [List.cons_append, valueOf, valueOf]
    by_cases hk : e.key = k
    · simp [hk]
    · simp only [hk, if_false]
      apply ih
      simp only [List.map_cons, List.mem_cons] at h
      rcases h with h | h
      · exact absurd h.symm hk
      · exact h

/-- Appending entries with fresh keys preserves key uniqueness. -/
theorem plan_keys_nodup (es ts : List Entry)
    (h1 : (es.map (·.key)).Nodup) (h2 : (ts.map (·.key)).Nodup) :
    ((es ++ plan (es.map (·.key)) ts).map (·.key)).Nodup := by
  rw [List.map_append, List.nodup_append]
  refine ⟨h1, ?_, ?_⟩
  · exact h2.sublist ((List.filter_sublist ts).map _)
  · intro k hk hk2
    obtain ⟨e, he, rfl⟩ := List.mem_map.1 hk2
    have := (List.mem_filter.1 he).2
    simp only [decide_eq_true_eq] at this
    exact this hk

/-- Claim C4, counterexample.  Key uniqueness is not preserved by the wifi
merge: a file declaring ai_wifi_required_hint once (and no key twice),
merged with the three pairwise distinct wifi keys, ends with that key
declared twice. -/
theorem claim_C4_counterexample :
    (findKeys "<resources>\n    <string name=\"ai_wifi_required_hint\">old</string>\n    <string name=\"premium_settings_new_tags_desc\">v</string>\n</resources>".toList).Nodup ∧
    (["ai_wifi_only_banner".toList, "ai_wifi_only_override_button".toList,
      "ai_wifi_required_hint".toList] : List (List Char)).Nodup ∧
    (mergeWifi ⟨"B".toList, "U".toList, "H".toList⟩
      "<resources>\n    <string name=\"ai_wifi_required_hint\">old</string>\n    <string name=\"premium_settings_new_tags_desc\">v</string>\n</resources>".toList).2 =
      .added 3 ∧
    ¬ (findKeys (mergeWifi ⟨"B".toList, "U".toList, "H".toList⟩
      "<resources>\n    <string name=\"ai_wifi_required_hint\">old</string>\n    <string name=\"premium_settings_new_tags_desc\">v</string>\n</resources>".toList).1).Nodup := by
  decide

/-- Claim C4, amended.  The 2fa and security merges preserve key uniqueness:
when no key is declared twice before the run and the candidate keys are
pairwise distinct, no key is declared twice afterwards.  (The wifi merge
does not satisfy this, as the counterexample shows.) -/
theorem claim_C4 :
    (∀ (ts : List Entry) (s : List Char) (es : List Entry),
      parseXml s = some es → wfTable es → wfTable ts →
      (es.map (·.key)).Nodup → (ts.map (·.key)).Nodup →
      ∃ es', parseXml (mergeXml ts s).1 = some es' ∧
        (es'.map (·.key)).Nodup) ∧
    (∀ (hdr : List Char) (es ts : List Entry),
      wfHdr hdr → wfTable es → wfTable ts →
      (findKeys (flatFile hdr es)).Nodup → (ts.map (·.key)).Nodup →
      (findKeys (mergeSecurity ts (flatFile hdr es)).1).Nodup) := by
  constructor
  · intro ts s es h hes hts hnes hnts
    rw [mergeXml_char ts s es h]
    by_cases hpl : plan (es.map (·.key)) ts = []
    · exact ⟨es, by simp [hpl, h], hnes⟩
    · refine ⟨es ++ plan (es.map (·.key)) ts, ?_, plan_keys_nodup es ts hnes hnts⟩
      simp only [hpl, if_neg hpl, if_false]
      exact parseXml_flatFile _ (wfTable_append hes (wfTable_plan hts))
  · intro hdr es ts hq hes hts hn hnts
    rw [findKeys_flatFile hdr es hq hes] at hn
    rw [mergeSecurity_flatFile hdr es ts hq hes]
    by_cases hpl : plan (es.map (·.key)) ts = []
    · rw [if_pos hpl]
      rw [findKeys_flatFile hdr es hq hes]
      exact hn
    · rw [if_neg hpl]
      rw [findKeys_flatFile hdr _ hq (wfTable_append hes (wfTable_plan hts))]
      exact plan_keys_nodup es ts hn hnts

/-- Witness for C4 at a concrete file and table for both strategies. -/
theorem claim_C4_witness :
    (∃ es', parseXml (mergeXml [⟨"a".toList, "z".toList⟩, ⟨"b".toList, "y".toList⟩]
        "<resources>\n    <string name=\"a\">x</string>\n</resources>".toList).1 =
        some es' ∧ (es'.map (·.key)).Nodup) ∧
    (findKeys (mergeSecurity [⟨"a".toList, "z".toList⟩, ⟨"b".toList, "y".toList⟩]
      (flatFile "<resources>\n".toList [⟨"a".toList, "x".toList⟩])).1).Nodup :=
  ⟨claim_C4.1 [⟨"a".toList, "z".toList⟩, ⟨"b".toList, "y".toList⟩] _
      [⟨"a".toList, "x".toList⟩] (by decide) (by decide) (by decide)
      (by decide) (by decide),
   claim_C4.2 "<resources>\n".toList [⟨"a".toList, "x".toList⟩]
      [⟨"a".toList, "z".toList⟩, ⟨"b".toList, "y".toList⟩] (by decide)
      (by decide) (by decide) (by decide) (by decide)⟩

/-- Claim C7.  The merge is non-destructive: for every key present in the file
before the merge, its associated value after the merge equals its value
before, even when the candidate table defines the same key with a
different value — the planner drops every candidate whose key exists, so
the existing declaration (the first one, which is the one a reader
resolves) is untouched in both strategies. -/
theorem claim_C7 :
    (∀ (ts : List Entry) (s : List Char) (es : List Entry),
      parseXml s = some es → wfTable es → wfTable ts →
      ∃ es', parseXml (mergeXml ts s).1 = some es' ∧
        ∀ k, k ∈ es.map (·.key) → valueOf es' k = valueOf es k) ∧
    (∀ (hdr : List Char) (es ts : List Entry),
      wfHdr hdr → wfTable es → wfTable ts →
      ∃ es', (mergeSecurity ts (flatFile hdr es)).1 = flatFile hdr es' ∧
        findKeys (flatFile hdr es') = es'.map (·.key) ∧
        ∀ k, k ∈ es.map (·.key) → valueOf es' k = valueOf es k) := by
  constructor
  · intro ts s es h hes hts
    rw [mergeXml_char ts s es h]
    by_cases hpl : plan (es.map (·.key)) ts = []
    · exact ⟨es, by simp [hpl, h], fun k _ => rfl⟩
    · refine ⟨es ++ plan (es.map (·.key)) ts, ?_,
        fun k hk => valueOf_append_left es _ k hk⟩
      rw [if_neg hpl]
      exact parseXml_flatFile _ (wfTable_append hes (wfTable_plan hts))
  · intro hdr es ts hq hes hts
    rw [mergeSecurity_flatFile hdr es ts hq hes]
    by_cases hpl : plan (es.map (·.key)) ts = []
    · exact ⟨es, by rw [if_pos hpl], findKeys_flatFile hdr es hq hes,
        fun k _ => rfl⟩
    · refine ⟨es ++ plan (es.map (·.key)) ts, by rw [if_neg hpl],
        findKeys_flatFile hdr _ hq (wfTable_append hes (wfTable_plan hts)),
        fun k hk => valueOf_append_left es _ k hk⟩

/-- Witness for C7: a file declaring key a with value x, merged with a
table that redefines a with a different value and adds b; the stored
value of a is unchanged. -/
theorem claim_C7_witness :
    (∃ es', parseXml (mergeXml
        [⟨"a".toList, "CHANGED".toList⟩, ⟨"b".toList, "y".toList⟩]
        "<resources>\n    <string name=\"a\">x</string>\n</resources>".toList).1 =
        some es' ∧
      ∀ k, k ∈ (([⟨"a".toList, "x".toList⟩] : List Entry)).map (·.key) →
        valueOf es' k = valueOf [⟨"a".toList, "x".toList⟩] k) ∧
    (∃ es', (mergeSecurity
        [⟨"a".toList, "CHANGED".toList⟩, ⟨"b".toList, "y".toList⟩]
        (flatFile "<resources>\n".toList [⟨"a".toList, "x".toList⟩])).1 =
        flatFile "<resources>\n".toList es' ∧
      findKeys (flatFile "<resources>\n".toList es') = es'.map (·.key) ∧
      ∀ k, k ∈ (([⟨"a".toList, "x".toList⟩] : List Entry)).map (·.key) →
        valueOf es' k = valueOf [⟨"a".toList, "x".toList⟩] k) :=
  ⟨claim_C7.1 [⟨"a".toList, "CHANGED".toList⟩, ⟨"b".toList, "y".toList⟩] _
      [⟨"a".toList, "x".toList⟩] (by decide) (by decide) (by decide),
   claim_C7.2 "<resources>\n".toList [⟨"a".toList, "x".toList⟩]
      [⟨"a".toList, "CHANGED".toList⟩, ⟨"b".toList, "y".toList⟩]
      (by decide) (by decide) (by decide)⟩

/-! ### Single-point insertion (the frame property of claim C3) -/

/-- The output is the input with one contiguous block inserted at one
point: no byte outside the insertion point changes. -/
def insertedAt (o out : List Char) : Prop :=
  ∃ n ins, n ≤ o.length ∧ out = o.take n ++ ins ++ o.drop n

/-- The liberal reading of the frame clause: one contiguous block
inserted at one point, allowed to consume a run of whitespace of the
input immediately around that point. -/
def insertedAtWs (o out : List Char) : Prop :=
  ∃ n1 n2 ins, n1 ≤ n2 ∧ n2 ≤ o.length ∧
    (∀ c ∈ (o.take n2).drop n1, isWs c = true) ∧
    out = o.take n1 ++ ins ++ o.drop n2

theorem insertedAt_insertedAtWs {o out : List Char}
    (h : insertedAt o out) : insertedAtWs o out := by
  obtain ⟨n, ins, hn, hout⟩ := h
  refine ⟨n, n, ins, le_refl n, hn, fun c hc => ?_, hout⟩
  rw [List.drop_eq_nil_of_le (by rw [List.length_take]; omega)] at hc
  simp at hc

/-- Decidable characterization of the liberal frame property. -/
theorem insertedAtWs_iff (o out : List Char) :
    insertedAtWs o out ↔
    ∃ n1 ∈ List.range (o.length + 1),
      (o.take n1).isPrefixOf out = true ∧
      ∃ n2 ∈ List.range (o.length + 1), n1 ≤ n2 ∧
        ((o.take n2).drop n1).all isWs = true ∧
        o.length - (n2 - n1) ≤ out.length ∧
        ((o.drop n2).reverse).isPrefixOf out.reverse = true := by
  constructor
  · rintro ⟨n1, n2, ins, h12, h2len, hws, rfl⟩
    have hn1 : n1 ≤ o.length := le_trans h12 h2len
    refine ⟨n1, by simp only [List.mem_range]; omega,
      (isPrefixOf_iff _ _).2 ⟨ins ++ o.drop n2, by simp [List.append_assoc]⟩,
      n2, by simp only [List.mem_range]; omega, h12,
      List.all_eq_true.2 hws, ?_, ?_⟩
    · simp only [List.length_append, List.length_take, List.length_drop]
      omega
    · refine (isPrefixOf_iff _ _).2 ⟨(o.take n1 ++ ins).reverse, ?_⟩
      simp [List.reverse_append, List.append_assoc]
  · rintro ⟨n1, hn1mem, hpre, n2, hn2mem, h12, hws, hlen, hsuf⟩
    simp only [List.mem_range] at hn1mem hn2mem
    obtain ⟨t, ht⟩ := (isPrefixOf_iff _ _).1 hpre
    obtain ⟨u, hu⟩ := (isPrefixOf_iff _ _).1 hsuf
    have hout : u.reverse ++ o.drop n2 = out := by
      have h2 := congrArg List.reverse hu
      simpa [List.reverse_append] using h2
    have hmlen : u.reverse.length + (o.length - n2) = out.length := by
      have h2 := congrArg List.length hout
      rw [List.length_append, List.length_drop] at h2
      exact h2
    have hmn : n1 ≤ u.reverse.length := by omega
    have hn1len : (o.take n1).length = n1 := by
      rw [List.length_take]
      omega
    have ht2 : t = out.drop n1 := by
      have h2 := congrArg (List.drop n1) ht
      rw [List.drop_append_eq_append_drop, hn1len, Nat.sub_self,
        List.drop_zero,
        List.drop_eq_nil_of_le (le_of_eq hn1len), List.nil_append] at h2
      exact h2
    have hstep1 : out = o.take n1 ++ out.drop n1 := by
      rw [← ht2]
      exact ht.symm
    have hdropm : out.drop u.reverse.length = o.drop n2 := by
      have h2 := congrArg (List.drop u.reverse.length) hout
      rw [List.drop_append_eq_append_drop, List.drop_length, Nat.sub_self,
        List.drop_zero, List.nil_append] at h2
      exact h2.symm
    refine ⟨n1, n2, (out.drop n1).take (u.reverse.length - n1), h12, by omega,
      fun c hc => (List.all_eq_true.1 hws) c hc, ?_⟩
    calc out = o.take n1 ++ out.drop n1 := hstep1
    _ = o.take n1 ++ ((out.drop n1).take (u.reverse.length - n1) ++
        (out.drop n1).drop (u.reverse.length - n1)) := by
      rw [List.take_append_drop]
    _ = o.take n1 ++ ((out.drop n1).take (u.reverse.length - n1) ++
        out.drop u.reverse.length) := by
      have hdd : (out.drop n1).drop (u.reverse.length - n1) =
          out.drop u.reverse.length := by
        rw [List.drop_drop]
        congr 1
        omega
      rw [hdd]
    _ = o.take n1 ++ (out.drop n1).take (u.reverse.length - n1) ++
        o.drop n2 := by
      rw [hdropm, List.append_assoc]

/-- Claim C3, counterexample.  The structured strategy does not leave the bytes
outside the insertion point unchanged: on a parseable file whose
declaration uses double quotes and whose entry line is unindented, the
merge emits the canonical re-serialization (single-quoted declaration,
4-space indent), so the output is not the input with one block inserted,
not even allowing whitespace adjustments around the insertion point. -/
theorem claim_C3_counterexample :
    (mergeXml [⟨"b".toList, "y".toList⟩]
      "<?xml version=\"1.0\"?>\n<resources>\n<string name=\"a\">x</string>\n</resources>".toList).2 =
      .added 1 ∧
    ¬ insertedAtWs
      "<?xml version=\"1.0\"?>\n<resources>\n<string name=\"a\">x</string>\n</resources>".toList
      (mergeXml [⟨"b".toList, "y".toList⟩]
        "<?xml version=\"1.0\"?>\n<resources>\n<string name=\"a\">x</string>\n</resources>".toList).1 := by
  constructor
  · decide
  · rw [insertedAtWs_iff]
    decide

/-- Appending entries to a flat file is a single-point insertion just
before the closing tag. -/
theorem take_len_app (a b : List Char) : (a ++ b).take a.length = a := by
  simp

theorem drop_len_app (a b : List Char) : (a ++ b).drop a.length = b := by
  simp

theorem insertedAt_flatFile (hdr : List Char) (es ps : List Entry) :
    insertedAt (flatFile hdr es) (flatFile hdr (es ++ ps)) := by
  have hsh : flatFile hdr es =
      (hdr ++ (es.map entryLine).flatten) ++ closeTag := by
    rw [flatFile, List.append_assoc]
  refine ⟨(hdr ++ (es.map entryLine).flatten).length,
    (ps.map entryLine).flatten, ?_, ?_⟩
  · rw [hsh]
    simp
  · rw [hsh, take_len_app, drop_len_app, flatFile]
    simp [List.append_assoc]

/-- Claim C3, amended.  The frame property holds for the text-marker strategy
on well-formed flat files (the written file is the input with the new
entry lines inserted at the single point before the closing tag, every
other byte unchanged), and for the structured strategy exactly on inputs
already in canonical serialized form; on other parseable inputs the
structured strategy re-serializes the whole document, as the
counterexample shows. -/
theorem claim_C3 :
    (∀ (hdr : List Char) (es ts : List Entry), wfHdr hdr → wfTable es →
      (mergeSecurity ts (flatFile hdr es)).1 =
        flatFile hdr (es ++ plan (es.map (·.key)) ts) ∨
        (mergeSecurity ts (flatFile hdr es)).1 = flatFile hdr es) ∧
    (∀ (hdr : List Char) (es ts : List Entry), wfHdr hdr → wfTable es →
      insertedAt (flatFile hdr es) ((mergeSecurity ts (flatFile hdr es)).1)) ∧
    (∀ (es ts : List Entry), wfTable es →
      insertedAt (serializeXml es) ((mergeXml ts (serializeXml es)).1)) := by
  have hkey : ∀ (hdr : List Char) (es ts : List Entry), wfHdr hdr →
      wfTable es → (mergeSecurity ts (flatFile hdr es)).1 =
        flatFile hdr (es ++ plan (es.map (·.key)) ts) ∨
        (mergeSecurity ts (flatFile hdr es)).1 = flatFile hdr es := by
    intro hdr es ts hq hes
    rw [mergeSecurity_flatFile hdr es ts hq hes]
    by_cases hpl : plan (es.map (·.key)) ts = []
    · right
      rw [if_pos hpl]
    · left
      rw [if_neg hpl]
  refine ⟨hkey, fun hdr es ts hq hes => ?_, fun es ts hes => ?_⟩
  · rcases hkey hdr es ts hq hes with h | h
    · rw [h]
      exact insertedAt_flatFile hdr es _
    · rw [h]
      exact ⟨(flatFile hdr es).length, [], le_refl _, by simp⟩
  · rw [mergeXml_char ts (serializeXml es) es (parseXml_flatFile es hes)]
    by_cases hpl : plan (es.map (·.key)) ts = []
    · rw [if_pos hpl]
      exact ⟨(serializeXml es).length, [], le_refl _, by simp⟩
    · rw [if_neg hpl]
      exact insertedAt_flatFile canonHdr es _

/-- Witness for C3 at a concrete one-entry file and a fresh entry, both
strategies. -/
theorem claim_C3_witness :
    insertedAt (flatFile "<resources>\n".toList [⟨"a".toList, "x".toList⟩])
      ((mergeSecurity [⟨"b".toList, "y".toList⟩]
        (flatFile "<resources>\n".toList [⟨"a".toList, "x".toList⟩])).1) ∧
    insertedAt (serializeXml [⟨"a".toList, "x".toList⟩])
      ((mergeXml [⟨"b".toList, "y".toList⟩]
        (serializeXml [⟨"a".toList, "x".toList⟩])).1) :=
  ⟨claim_C3.2.1 "<resources>\n".toList [⟨"a".toList, "x".toList⟩]
      [⟨"b".toList, "y".toList⟩] (by decide) (by decide),
   claim_C3.2.2 [⟨"a".toList, "x".toList⟩] [⟨"b".toList, "y".toList⟩]
      (by decide)⟩

/-- Claim C8, counterexample.  The two strategies are not behaviorally
equivalent on every well-formed file: on a file whose only entry carries
an extra attribute (string k1 with translatable false, a valid resource
file), the structured strategy sees k1 and reports no-op, while the text
strategy's regex misses it and re-inserts k1 — different outcome
classification and different resulting bytes. -/
theorem claim_C8_counterexample :
    (mergeXml [⟨"k1".toList, "w".toList⟩]
      "<?xml version='1.0' encoding='utf-8'?>\n<resources>\n    <string name=\"k1\" translatable=\"false\">v</string>\n</resources>".toList).2 =
      .noop ∧
    (mergeSecurity [⟨"k1".toList, "w".toList⟩]
      "<?xml version='1.0' encoding='utf-8'?>\n<resources>\n    <string name=\"k1\" translatable=\"false\">v</string>\n</resources>".toList).2 =
      .added 1 ∧
    (mergeXml [⟨"k1".toList, "w".toList⟩]
      "<?xml version='1.0' encoding='utf-8'?>\n<resources>\n    <string name=\"k1\" translatable=\"false\">v</string>\n</resources>".toList).1 ≠
    (mergeSecurity [⟨"k1".toList, "w".toList⟩]
      "<?xml version='1.0' encoding='utf-8'?>\n<resources>\n    <string name=\"k1\" translatable=\"false\">v</string>\n</resources>".toList).1 := by
  refine ⟨by decide, by decide, by decide⟩

/-- Claim C8, amended.  On files in canonical serialized form (every entry
written exactly as an indented plain string line) the two strategies are
behaviorally equivalent in the strongest sense: same resulting bytes and
same outcome, for every candidate table.  They diverge on files with
attribute variants, as the counterexample shows. -/
theorem claim_C8 (es ts : List Entry) (hes : wfTable es)
    (_hts : wfTable ts) :
    mergeXml ts (flatFile canonHdr es) =
      mergeSecurity ts (flatFile canonHdr es) := by
  rw [mergeXml_char ts (flatFile canonHdr es) es (parseXml_flatFile es hes),
    mergeSecurity_flatFile canonHdr es ts (by decide) hes]
  by_cases hpl : plan (es.map (·.key)) ts = []
  · rw [if_pos hpl, if_pos hpl]
  · rw [if_neg hpl, if_neg hpl, serializeXml]

/-- Witness for C8 at a concrete one-entry canonical file and a
fresh-plus-existing candidate table. -/
theorem claim_C8_witness :
    mergeXml [⟨"a".toList, "z".toList⟩, ⟨"b".toList, "y".toList⟩]
      (flatFile canonHdr [⟨"a".toList, "x".toList⟩]) =
    mergeSecurity [⟨"a".toList, "z".toList⟩, ⟨"b".toList, "y".toList⟩]
      (flatFile canonHdr [⟨"a".toList, "x".toList⟩]) :=
  claim_C8 [⟨"a".toList, "x".toList⟩]
    [⟨"a".toList, "z".toList⟩, ⟨"b".toList, "y".toList⟩]
    (by decide) (by decide)

/-! ### Entries declared with extra attributes (claim C9) -/

/-- A string-element line whose tag carries extra attributes after the
name attribute (for example translatable equals false). -/
def attrLine (k attrs v : List Char) : List Char :=
  spaces4 ++ pat ++ k ++ '"' :: (attrs ++ '>' :: (v ++ closeStr ++ ['\n']))

/-- The regex never matches at the opening of an attribute-bearing tag:
after the key's closing quote the next character is not the gt the
pattern requires. -/
theorem tryMatch_attr_none (k attrs : List Char) (hk : '"' ∉ k)
    (hne : attrs ≠ []) (hgt : '>' ∉ attrs) (b : List Char) :
    tryMatch (pat ++ (k ++ '"' :: (attrs ++ '>' :: b))) = none := by
  rw [tryMatch, isPrefixOf_append]
  simp only [if_true, List.drop_left]
  rw [takeWhile_bne_append '"' k _ hk, dropWhile_bne_append '"' k _ hk]
  cases attrs with
  | nil => exact absurd rfl hne
  | cons a as =>
    have ha : a ≠ '>' := by
      intro h
      exact hgt (h ▸ List.mem_cons_self a as)
    split
    case h_1 t' heq =>
      exfalso
      rw [List.cons_append] at heq
      injection heq with h1 h2
      injection h2 with h3 _
      exact ha h3
    case h_2 => rfl

/-- No match starts anywhere inside an attribute-bearing line. -/
theorem NoStart_attrLine (k attrs v : List Char) (hk : '"' ∉ k)
    (hklt : '<' ∉ k) (hne : attrs ≠ []) (hgt : '>' ∉ attrs)
    (hlt : '<' ∉ attrs) (hv : '<' ∉ v) :
    NoStart (attrLine k attrs v) := by
  have he : attrLine k attrs v =
      spaces4 ++ ('<' :: ("string name=\"".toList ++
        (k ++ '"' :: (attrs ++ '>' :: (v ++ (closeStr ++ ['\n'])))))) := by
    simp only [attrLine, List.append_assoc]
    rfl
  rw [he]
  apply NoStart_append NoStart_spaces4
  apply NoStart_cons
  · intro b
    simp only [List.append_assoc, List.cons_append, List.nil_append]
    exact tryMatch_attr_none k attrs hk hne hgt _
  apply NoStart_append (NoStart_of_all_ne _ (by decide))
  apply NoStart_append (NoStart_of_all_ne _ (fun c hc h2 => hklt (h2 ▸ hc)))
  apply NoStart_cons _ _ (fun b => tryMatch_none_not_lt '"' _ (by decide))
  apply NoStart_append (NoStart_of_all_ne _ (fun c hc h2 => hlt (h2 ▸ hc)))
  apply NoStart_cons _ _ (fun b => tryMatch_none_not_lt '>' _ (by decide))
  apply NoStart_append (NoStart_of_all_ne _ (fun c hc h2 => hv (h2 ▸ hc)))
  exact NoStart_append NoStart_closeStr (NoStart_of_all_ne _ (by decide))

/-- The thirteen characters opening an indented string line (plain or
attribute-bearing) hold no quote. -/
theorem take13_sp (x : List Char) :
    '"' ∉ (spaces4 ++ (pat ++ x)).take 13 := by
  rw [List.take_append_eq_append_take, List.take_append_eq_append_take]
  intro hmem
  rcases List.mem_append.1 hmem with hm | hm
  · revert hm
    decide
  · rcases List.mem_append.1 hm with hm2 | hm2
    · revert hm2
      have h9 : (13 - spaces4.length) = 9 := by decide
      rw [h9]
      decide
    · have hz : 13 - spaces4.length - pat.length = 0 := by decide
      rw [hz] at hm2
      simp at hm2

/-- Scanning a flat file with one attribute-bearing declaration in the
middle yields exactly the keys of the plainly declared entries: the
attribute-bearing key is missed. -/
theorem findKeys_with_attr (hdr : List Char) (es1 es2 : List Entry)
    (k attrs v : List Char) (hq : '"' ∉ hdr)
    (hes1 : wfTable es1) (hes2 : wfTable es2)
    (hk : '"' ∉ k) (hklt : '<' ∉ k)
    (hne : attrs ≠ []) (hgt : '>' ∉ attrs) (hlt : '<' ∉ attrs)
    (hv : '<' ∉ v) :
    findKeys (hdr ++ ((es1.map entryLine).flatten ++ (attrLine k attrs v ++
      ((es2.map entryLine).flatten ++ closeTag)))) =
      es1.map (·.key) ++ es2.map (·.key) := by
  have htail : '"' ∉ ((es1.map entryLine).flatten ++ (attrLine k attrs v ++
      ((es2.map entryLine).flatten ++ closeTag))).take 13 := by
    cases es1 with
    | nil =>
      simp only [List.map_nil, List.flatten_nil, List.nil_append]
      have hsh : attrLine k attrs v ++
          ((es2.map entryLine).flatten ++ closeTag) =
          spaces4 ++ (pat ++ (k ++ '"' :: (attrs ++ '>' ::
            (v ++ closeStr ++ ['\n'])) ++
            ((es2.map entryLine).flatten ++ closeTag))) := by
        simp only [attrLine, List.append_assoc]
      rw [hsh]
      exact take13_sp _
    | cons e rest =>
      have hsh : ((e :: rest).map entryLine).flatten ++
          (attrLine k attrs v ++ ((es2.map entryLine).flatten ++ closeTag)) =
          spaces4 ++ (pat ++ (e.key ++ '"' :: '>' ::
            (e.val ++ closeStr ++ ['\n']) ++
            ((rest.map entryLine).flatten ++
              (attrLine k attrs v ++
                ((es2.map entryLine).flatten ++ closeTag))))) := by
        simp only [List.map_cons, List.flatten_cons, entryLine,
          List.append_assoc]
      rw [hsh]
      exact take13_sp _
  rw [findKeys_skip (h := hdr_no_match hdr _ hq htail)]
  rw [findKeys_entries es1 _ hes1]
  rw [findKeys_skip_of_NoStart _ _
    (NoStart_attrLine k attrs v hk hklt hne hgt hlt hv)]
  rw [findKeys_entries es2 _ hes2]
  have hclose : findKeys closeTag = [] := by decide
  rw [hclose, List.append_nil]

/-- Claim C9.  The text-marker strategy's existing-key extraction recognizes
only the literal plain form: a key declared with extra attributes is not
in the computed existing key set, and when no plain declaration of that
key exists elsewhere a candidate entry with the same key is inserted
again by the security merge. -/
theorem claim_C9 (hdr : List Char) (es1 es2 : List Entry)
    (k attrs v : List Char) (hq : '"' ∉ hdr)
    (hes1 : wfTable es1) (hes2 : wfTable es2)
    (hk : '"' ∉ k) (hklt : '<' ∉ k)
    (hne : attrs ≠ []) (hgt : '>' ∉ attrs) (hlt : '<' ∉ attrs)
    (hv : '<' ∉ v)
    (hfresh : k ∉ es1.map (·.key) ++ es2.map (·.key)) :
    k ∉ findKeys (hdr ++ ((es1.map entryLine).flatten ++
      (attrLine k attrs v ++ ((es2.map entryLine).flatten ++ closeTag)))) ∧
    ∀ w, (mergeSecurity [⟨k, w⟩]
      (hdr ++ ((es1.map entryLine).flatten ++ (attrLine k attrs v ++
        ((es2.map entryLine).flatten ++ closeTag))))).2 = .added 1 := by
  have hfk := findKeys_with_attr hdr es1 es2 k attrs v hq hes1 hes2 hk
    hklt hne hgt hlt hv
  refine ⟨by rw [hfk]; exact hfresh, fun w => ?_⟩
  rw [mergeSecurity]
  rw [hfk]
  have hplan : plan (es1.map (·.key) ++ es2.map (·.key)) [⟨k, w⟩] =
      [⟨k, w⟩] := by
    rw [plan, List.filter_cons]
    simp [hfresh]
  rw [hplan]
  have hanchor : (findSub (hdr ++ ((es1.map entryLine).flatten ++
      (attrLine k attrs v ++ ((es2.map entryLine).flatten ++ closeTag))))
      closeTag).isSome = true := by
    rw [findSub_isSome_iff]
    exact ⟨hdr ++ ((es1.map entryLine).flatten ++ (attrLine k attrs v ++
      (es2.map entryLine).flatten)), [], by simp [List.append_assoc]⟩
  simp only [hanchor, if_true]
  simp

/-- Witness for C9: a file whose only declaration of k1 carries the
translatable attribute, plus one plain entry; the candidate k1 is
inserted again. -/
theorem claim_C9_witness :
    "k1".toList ∉ findKeys ("<resources>\n".toList ++
      ((([⟨"a".toList, "x".toList⟩] : List Entry).map entryLine).flatten ++
      (attrLine "k1".toList " translatable=\"false\"".toList "v".toList ++
        ((([] : List Entry).map entryLine).flatten ++ closeTag)))) ∧
    ∀ w, (mergeSecurity [⟨"k1".toList, w⟩]
      ("<resources>\n".toList ++
        ((([⟨"a".toList, "x".toList⟩] : List Entry).map entryLine).flatten ++
        (attrLine "k1".toList " translatable=\"false\"".toList "v".toList ++
          ((([] : List Entry).map entryLine).flatten ++ closeTag))))).2 =
      .added 1 :=
  claim_C9 "<resources>\n".toList [⟨"a".toList, "x".toList⟩] []
    "k1".toList " translatable=\"false\"".toList "v".toList
    (by decide) (by decide) (by decide) (by decide) (by decide)
    (by decide) (by decide) (by decide) (by decide) (by decide)

/-! ### Batch-driver isolation (claim C5) -/

theorem folder2fa_inj (l1 l2 : String) (h : folder2fa l1 = folder2fa l2) :
    l1 = l2 := by
  rw [folder2fa, folder2fa] at h
  by_cases h1 : l1 = "en" <;> by_cases h2 : l2 = "en"
  · rw [h1, h2]
  · rw [if_pos h1, if_neg h2] at h
    have hd := congrArg String.data h
    rw [String.data_append] at hd
    have := congrArg List.length hd
    simp at this
  · rw [if_neg h1, if_pos h2] at h
    have hd := congrArg String.data h
    rw [String.data_append] at hd
    have := congrArg List.length hd
    simp at this
  · rw [if_neg h1, if_neg h2] at h
    have hd := congrArg String.data h
    rw [String.data_append, String.data_append] at hd
    have hcancel := List.append_cancel_left hd
    exact congrArg String.mk hcancel

/-- Processing one locale in the 2fa batch touches no other folder. -/
theorem step2fa_frame (fs : FS) (lc : String × List Entry) (f' : String)
    (h : f' ≠ folder2fa lc.1) : (step2fa fs lc).1 f' = fs f' := by
  rw [step2fa]
  cases hfs : fs (folder2fa lc.1) with
  | none => rfl
  | some s =>
    dsimp only
    cases ho : (mergeXml lc.2 s).2 with
    | added n => simp [fsWrite, h]
    | noop => rfl
    | notFound => rfl
    | unknownLocale => rfl
    | parseError => rfl
    | anchorNotFound => rfl
    | writeError => rfl

/-- The per-locale 2fa outcome depends only on that locale's file. -/
theorem step2fa_out (fs1 fs2 : FS) (lc : String × List Entry)
    (h : fs1 (folder2fa lc.1) = fs2 (folder2fa lc.1)) :
    (step2fa fs1 lc).2 = (step2fa fs2 lc).2 := by
  rw [step2fa, step2fa, h]
  cases hfs : fs2 (folder2fa lc.1) with
  | none => rfl
  | some s =>
    dsimp only
    cases ho : (mergeXml lc.2 s).2 <;> rfl

theorem stepSecurity_frame (fs : FS) (lc : String × List Entry)
    (f' : String)
    (h : ∀ folder, lookupL LANG_FOLDERS lc.1 = some folder → f' ≠ folder) :
    (stepSecurity fs lc).1 f' = fs f' := by
  rw [stepSecurity]
  cases hlk : lookupL LANG_FOLDERS lc.1 with
  | none => rfl
  | some folder =>
    dsimp only
    cases hfs : fs folder with
    | none => rfl
    | some s =>
      dsimp only
      cases ho : (mergeSecurity lc.2 s).2 with
      | added n => simp [fsWrite, h folder hlk]
      | noop => rfl
      | notFound => rfl
      | unknownLocale => rfl
      | parseError => rfl
      | anchorNotFound => rfl
      | writeError => rfl

theorem stepSecurity_out (fs1 fs2 : FS) (lc : String × List Entry)
    (h : ∀ folder, lookupL LANG_FOLDERS lc.1 = some folder →
      fs1 folder = fs2 folder) :
    (stepSecurity fs1 lc).2 = (stepSecurity fs2 lc).2 := by
  rw [stepSecurity, stepSecurity]
  cases hlk : lookupL LANG_FOLDERS lc.1 with
  | none => rfl
  | some folder =>
    dsimp only
    rw [h folder hlk]
    cases hfs : fs2 folder with
    | none => rfl
    | some s =>
      dsimp only
      cases ho : (mergeSecurity lc.2 s).2 <;> rfl

/-- Members of an association list found by lookup. -/
theorem lookupL_mem {α : Type} (m : List (String × α)) (l : String)
    (x : α) (h : lookupL m l = some x) : (l, x) ∈ m := by
  induction m with
  | nil => exact absurd h (by simp [lookupL])
  | cons p rest ih =>
    rw [lookupL] at h
    by_cases hp : p.1 = l
    · rw [if_pos hp] at h
      injection h with h2
      refine List.mem_cons.2 (Or.inl ?_)
      rw [← hp, ← h2]
    · rw [if_neg hp] at h
      exact List.mem_cons_of_mem p (ih h)

/-- Two bindings with the same value coincide when the values are
pairwise distinct. -/
theorem snd_nodup_inj {α β : Type} (m : List (α × β))
    (h : (m.map Prod.snd).Nodup) (a1 a2 : α) (b : β)
    (h1 : (a1, b) ∈ m) (h2 : (a2, b) ∈ m) : a1 = a2 := by
  induction m with
  | nil => simp at h1
  | cons p rest ih =>
    rw [List.map_cons, List.nodup_cons] at h
    rcases List.mem_cons.1 h1 with he1 | he1
    · rcases List.mem_cons.1 h2 with he2 | he2
      · rw [← he2] at he1
        injection he1 with h3 h4
      · exfalso
        apply h.1
        rw [← he1]
        exact List.mem_map.2 ⟨(a2, b), he2, rfl⟩
    · rcases List.mem_cons.1 h2 with he2 | he2
      · exfalso
        apply h.1
        rw [← he2]
        exact List.mem_map.2 ⟨(a1, b), he1, rfl⟩
      · exact ih h.2 he1 he2

theorem lookupL_LANG_inj (l1 l2 f : String)
    (h1 : lookupL LANG_FOLDERS l1 = some f)
    (h2 : lookupL LANG_FOLDERS l2 = some f) : l1 = l2 :=
  snd_nodup_inj LANG_FOLDERS (by decide) l1 l2 f
    (lookupL_mem _ _ _ h1) (lookupL_mem _ _ _ h2)

theorem step2fa_fst (fs : FS) (lc : String × List Entry) :
    ((step2fa fs lc).2).1 = lc.1 := by
  rw [step2fa]
  cases hfs : fs (folder2fa lc.1) with
  | none => rfl
  | some s =>
    dsimp only
    cases ho : (mergeXml lc.2 s).2 <;> rfl

theorem stepSecurity_fst (fs : FS) (lc : String × List Entry) :
    ((stepSecurity fs lc).2).1 = lc.1 := by
  rw [stepSecurity]
  cases hlk : lookupL LANG_FOLDERS lc.1 with
  | none => rfl
  | some folder =>
    dsimp only
    cases hfs : fs folder with
    | none => rfl
    | some s =>
      dsimp only
      cases ho : (mergeSecurity lc.2 s).2 <;> rfl

/-- The outcome list of the 2fa batch is a pointwise map over the table:
each locale's outcome is a function of the initial filesystem and that
locale alone. -/
theorem run2fa_outcomes (table : List (String × List Entry)) :
    ∀ fs : FS, (table.map Prod.fst).Nodup →
    (run2fa fs table).2 = table.map (fun lc => (step2fa fs lc).2) := by
  induction table with
  | nil => intro fs _; rfl
  | cons lc rest ih =>
    intro fs hnd
    rw [List.map_cons, List.nodup_cons] at hnd
    rw [run2fa]
    dsimp only
    rw [ih _ hnd.2, List.map_cons]
    congr 1
    apply List.map_congr_left
    intro lc' hlc'
    apply step2fa_out
    apply step2fa_frame
    intro heq
    apply hnd.1
    rw [← folder2fa_inj lc'.1 lc.1 heq]
    exact List.mem_map.2 ⟨lc', hlc', rfl⟩

/-- Same for the security batch, via the folder map. -/
theorem runSecurity_outcomes (table : List (String × List Entry)) :
    ∀ fs : FS, (table.map Prod.fst).Nodup →
    (runSecurity fs table).2 =
      table.map (fun lc => (stepSecurity fs lc).2) := by
  induction table with
  | nil => intro fs _; rfl
  | cons lc rest ih =>
    intro fs hnd
    rw [List.map_cons, List.nodup_cons] at hnd
    rw [runSecurity]
    dsimp only
    rw [ih _ hnd.2, List.map_cons]
    congr 1
    apply List.map_congr_left
    intro lc' hlc'
    apply stepSecurity_out
    intro folder' hlk'
    apply stepSecurity_frame
    intro folder hlk heq
    apply hnd.1
    rw [← lookupL_LANG_inj lc'.1 lc.1 folder' (by rw [hlk'])
      (by rw [hlk, ← heq])]
    exact List.mem_map.2 ⟨lc', hlc', rfl⟩

/-- Filtering a table commutes with mapping a first-component-preserving
function. -/
theorem map_fst_filter {β γ : Type} (f : String × β → String × γ)
    (hf : ∀ x, (f x).1 = x.1) (l : String) :
    ∀ (table : List (String × β)),
    (table.filter (fun x => x.1 != l)).map f =
      (table.map f).filter (fun y => y.1 != l) := by
  intro table
  induction table with
  | nil => rfl
  | cons p rest ih =>
    rw [List.filter_cons, List.map_cons, List.filter_cons]
    have h2 : ((f p).1 != l) = (p.1 != l) := by rw [hf p]
    rw [h2]
    cases hp : (p.1 != l) with
    | true => simp only [if_true, List.map_cons, ih]
    | false => simp only [Bool.false_eq_true, if_false, ih]

/-- Under any IO environment, processing one locale in the 2fa batch
touches no other folder. -/
theorem step2faW_frame (wf : String → Bool) (fs : FS)
    (lc : String × List Entry) (f' : String)
    (h : f' ≠ folder2fa lc.1) : (step2faW wf fs lc).1 f' = fs f' := by
  rw [step2faW]
  cases hfs : fs (folder2fa lc.1) with
  | none => rfl
  | some s =>
    dsimp only
    cases ho : (mergeXml lc.2 s).2 with
    | added n =>
      cases hw : wf (folder2fa lc.1) with
      | false => simp [fsWrite, h]
      | true => rfl
    | noop => rfl
    | notFound => rfl
    | unknownLocale => rfl
    | parseError => rfl
    | anchorNotFound => rfl
    | writeError => rfl

/-- Under any IO environment, the per-locale 2fa outcome depends only on
that locale's file. -/
theorem step2faW_out (wf : String → Bool) (fs1 fs2 : FS)
    (lc : String × List Entry)
    (h : fs1 (folder2fa lc.1) = fs2 (folder2fa lc.1)) :
    (step2faW wf fs1 lc).2 = (step2faW wf fs2 lc).2 := by
  rw [step2faW, step2faW, h]
  cases hfs : fs2 (folder2fa lc.1) with
  | none => rfl
  | some s =>
    dsimp only
    cases ho : (mergeXml lc.2 s).2 with
    | added n => cases hw : wf (folder2fa lc.1) <;> rfl
    | noop => rfl
    | notFound => rfl
    | unknownLocale => rfl
    | parseError => rfl
    | anchorNotFound => rfl
    | writeError => rfl

theorem step2faW_fst (wf : String → Bool) (fs : FS)
    (lc : String × List Entry) : ((step2faW wf fs lc).2).1 = lc.1 := by
  rw [step2faW]
  cases hfs : fs (folder2fa lc.1) with
  | none => rfl
  | some s =>
    dsimp only
    cases ho : (mergeXml lc.2 s).2 with
    | added n => cases hw : wf (folder2fa lc.1) <;> rfl
    | noop => rfl
    | notFound => rfl
    | unknownLocale => rfl
    | parseError => rfl
    | anchorNotFound => rfl
    | writeError => rfl

/-- Under any IO environment the outcome list of the 2fa batch is still a
pointwise map over the table: failed writes included, each locale's
outcome is a function of the initial filesystem and that locale alone. -/
theorem run2faW_outcomes (wf : String → Bool)
    (table : List (String × List Entry)) :
    ∀ fs : FS, (table.map Prod.fst).Nodup →
    (run2faW wf fs table).2 =
      table.map (fun lc => (step2faW wf fs lc).2) := by
  induction table with
  | nil => intro fs _; rfl
  | cons lc rest ih =>
    intro fs hnd
    rw [List.map_cons, List.nodup_cons] at hnd
    rw [run2faW]
    dsimp only
    rw [ih _ hnd.2, List.map_cons]
    congr 1
    apply List.map_congr_left
    intro lc' hlc'
    apply step2faW_out
    apply step2faW_frame
    intro heq
    apply hnd.1
    rw [← folder2fa_inj lc'.1 lc.1 heq]
    exact List.mem_map.2 ⟨lc', hlc', rfl⟩

/-- In the environment where no write raises, the fallible security step
is the infallible one. -/
theorem stepSecurityW_noFail (fs : FS) (lc : String × List Entry) :
    stepSecurityW (fun f => false) fs lc = some (stepSecurity fs lc) := by
  rw [stepSecurityW, stepSecurity]
  cases hlk : lookupL LANG_FOLDERS lc.1 with
  | none => rfl
  | some folder =>
    dsimp only
    cases hfs : fs folder with
    | none => rfl
    | some s =>
      dsimp only
      cases ho : (mergeSecurity lc.2 s).2 <;> rfl

/-- In the environment where no write raises, the fallible security batch
never aborts and agrees with the infallible one. -/
theorem runSecurityW_noFail (table : List (String × List Entry)) :
    ∀ fs : FS, runSecurityW (fun f => false) fs table =
      some (runSecurity fs table) := by
  induction table with
  | nil => intro fs; rfl
  | cons lc rest ih =>
    intro fs
    rw [runSecurityW, runSecurity]
    rw [stepSecurityW_noFail]
    dsimp only
    rw [ih]

/-- Claim C5, counterexample.  The security script catches no exceptions
at the single-locale boundary: in an environment where writing the
English file raises, the two-locale batch aborts (no outcome list at
all), while the same run without the failing locale completes and merges
the French file — so a write failure is converted to no per-locale
outcome, aborts the batch, and changes the remaining locale's outcome
from added 1 to nothing. -/
theorem claim_C5_counterexample :
    (runSecurityW (fun f => f == "values-en")
      (fun f => if f = "values-en" ∨ f = "values-fr"
        then some "<resources>\n</resources>".toList else none)
      [("en", [⟨"a".toList, "x".toList⟩]),
       ("fr", [⟨"a".toList, "x".toList⟩])]).isSome = false ∧
    (runSecurityW (fun f => f == "values-en")
      (fun f => if f = "values-en" ∨ f = "values-fr"
        then some "<resources>\n</resources>".toList else none)
      [("fr", [⟨"a".toList, "x".toList⟩])]).map Prod.snd =
      some [("fr", Outcome.added 1)] := by
  constructor
  · decide
  · decide

/-- Claim C5, amended.  Error isolation in the batch drivers, with the
two scripts differing on uncaught IO.  First, in executions whose file
accesses succeed, both drivers isolate every outcome: with pairwise
distinct locales, the outcome list of a run is the pointwise map of the
single-locale outcome over the initial filesystem, and removing any
locale from the table leaves every remaining locale's outcome unchanged
(first two conjuncts; the third identifies the infallible security run
with the fallible one under the failure-free environment).  Second, the
2fa driver keeps this isolation under every IO environment, because its
whole per-locale body sits inside try/except: a write failure becomes
that locale's outcome and no other locale's outcome moves (fourth
conjunct).  The security driver has no such guarantee — see the
counterexample, where one failing write aborts the whole batch. -/
theorem claim_C5 :
    (∀ (fs : FS) (table : List (String × List Entry)),
      (table.map Prod.fst).Nodup →
      ((run2fa fs table).2 = table.map (fun lc => (step2fa fs lc).2) ∧
       ∀ l : String, (run2fa fs (table.filter (fun lc => lc.1 != l))).2 =
         ((run2fa fs table).2).filter (fun p => p.1 != l))) ∧
    (∀ (fs : FS) (table : List (String × List Entry)),
      (table.map Prod.fst).Nodup →
      ((runSecurity fs table).2 =
        table.map (fun lc => (stepSecurity fs lc).2) ∧
       ∀ l : String,
         (runSecurity fs (table.filter (fun lc => lc.1 != l))).2 =
         ((runSecurity fs table).2).filter (fun p => p.1 != l))) ∧
    (∀ (fs : FS) (table : List (String × List Entry)),
      runSecurityW (fun f => false) fs table = some (runSecurity fs table)) ∧
    (∀ (wf : String → Bool) (fs : FS) (table : List (String × List Entry)),
      (table.map Prod.fst).Nodup →
      ((run2faW wf fs table).2 =
        table.map (fun lc => (step2faW wf fs lc).2) ∧
       ∀ l : String,
         (run2faW wf fs (table.filter (fun lc => lc.1 != l))).2 =
         ((run2faW wf fs table).2).filter (fun p => p.1 != l))) := by
  refine ⟨?_, ?_, ?_, ?_⟩
  · intro fs table hnd
    refine ⟨run2fa_outcomes table fs hnd, fun l => ?_⟩
    have hnd2 : ((table.filter (fun lc => lc.1 != l)).map Prod.fst).Nodup :=
      hnd.sublist ((List.filter_sublist table).map Prod.fst)
    rw [run2fa_outcomes _ fs hnd2, run2fa_outcomes table fs hnd]
    exact map_fst_filter _ (fun x => step2fa_fst fs x) l table
  · intro fs table hnd
    refine ⟨runSecurity_outcomes table fs hnd, fun l => ?_⟩
    have hnd2 : ((table.filter (fun lc => lc.1 != l)).map Prod.fst).Nodup :=
      hnd.sublist ((List.filter_sublist table).map Prod.fst)
    rw [runSecurity_outcomes _ fs hnd2, runSecurity_outcomes table fs hnd]
    exact map_fst_filter _ (fun x => stepSecurity_fst fs x) l table
  · intro fs table
    exact runSecurityW_noFail table fs
  · intro wf fs table hnd
    refine ⟨run2faW_outcomes wf table fs hnd, fun l => ?_⟩
    have hnd2 : ((table.filter (fun lc => lc.1 != l)).map Prod.fst).Nodup :=
      hnd.sublist ((List.filter_sublist table).map Prod.fst)
    rw [run2faW_outcomes wf _ fs hnd2, run2faW_outcomes wf table fs hnd]
    exact map_fst_filter _ (fun x => step2faW_fst wf fs x) l table

/-- Witness for C5: a two-locale 2fa table in an environment where the
English folder's write raises; the batch still yields one outcome per
locale, and removing either locale leaves the other's outcome intact. -/
theorem claim_C5_witness :
    ((run2faW (fun f => f == "values")
        (fun f => if f = "values" ∨ f = "values-fr"
          then some "<resources>\n</resources>".toList else none)
      [("en", [⟨"a".toList, "x".toList⟩]), ("fr", [⟨"a".toList, "y".toList⟩])]).2 =
      [("en", [⟨"a".toList, "x".toList⟩]), ("fr", [⟨"a".toList, "y".toList⟩])].map
        (fun lc => (step2faW (fun f => f == "values")
          (fun f => if f = "values" ∨ f = "values-fr"
            then some "<resources>\n</resources>".toList else none) lc).2) ∧
     ∀ l : String, (run2faW (fun f => f == "values")
        (fun f => if f = "values" ∨ f = "values-fr"
          then some "<resources>\n</resources>".toList else none)
      ([("en", [⟨"a".toList, "x".toList⟩]), ("fr", [⟨"a".toList, "y".toList⟩])].filter
        (fun lc => lc.1 != l))).2 =
      ((run2faW (fun f => f == "values")
        (fun f => if f = "values" ∨ f = "values-fr"
          then some "<resources>\n</resources>".toList else none)
        [("en", [⟨"a".toList, "x".toList⟩]), ("fr", [⟨"a".toList, "y".toList⟩])]).2).filter
        (fun p => p.1 != l)) :=
  claim_C5.2.2.2 (fun f => f == "values")
    (fun f => if f = "values" ∨ f = "values-fr"
      then some "<resources>\n</resources>".toList else none)
    [("en", [⟨"a".toList, "x".toList⟩]), ("fr", [⟨"a".toList, "y".toList⟩])]
    (by decide)

/-! ### The wifi driver (claim C10) -/

theorem stepWifi_fst (table : List (String × WifiTrans)) (fs : FS)
    (lf : String × String) (r : FS × (String × Outcome))
    (h : stepWifi table fs lf = some r) : (r.2).1 = lf.1 := by
  rw [stepWifi] at h
  cases hfs : fs lf.2 with
  | none =>
    rw [hfs] at h
    injection h with h2
    rw [← h2]
  | some s =>
    rw [hfs] at h
    dsimp only at h
    by_cases hsent : (findSub s sentinelW).isSome = true
    · rw [if_pos hsent] at h
      injection h with h2
      rw [← h2]
    · rw [if_neg hsent] at h
      cases hm : findSub s markerW with
      | none =>
        rw [hm] at h
        injection h with h2
        rw [← h2]
      | some mp =>
        rw [hm] at h
        dsimp only at h
        cases hlk : (lookupL table lf.1).orElse
            (fun _ => lookupL table "en") with
        | none => rw [hlk] at h; exact absurd h (by simp)
        | some tr =>
          rw [hlk] at h
          injection h with h2
          rw [← h2]

/-- The wifi batch reports one outcome per folder-map binding, in folder
map order — the iteration is over the locale-to-folder map, not over the
candidate table. -/
theorem runWifi_fst (table : List (String × WifiTrans))
    (lfs : List (String × String)) :
    ∀ (fs fsr : FS) (os : List (String × Outcome)),
    runWifi table fs lfs = some (fsr, os) →
    os.map Prod.fst = lfs.map Prod.fst := by
  induction lfs with
  | nil =>
    intro fs fsr os h
    rw [runWifi] at h
    injection h with h2
    have hos : os = [] := (congrArg Prod.snd h2).symm
    rw [hos]
    rfl
  | cons lf rest ih =>
    intro fs fsr os h
    rw [runWifi] at h
    cases hstep : stepWifi table fs lf with
    | none => rw [hstep] at h; exact absurd h (by simp)
    | some r =>
      rw [hstep] at h
      dsimp only at h
      cases hrun : runWifi table r.1 rest with
      | none => rw [hrun] at h; exact absurd h (by simp)
      | some rr =>
        rw [hrun] at h
        dsimp only at h
        injection h with h2
        have hos : os = r.2 :: rr.2 := (congrArg Prod.snd h2).symm
        rw [hos, List.map_cons, List.map_cons]
        rw [stepWifi_fst table fs lf r hstep]
        rw [ih r.1 rr.1 rr.2 hrun]

/-- Claim C10.  The wifi batch iterates the locale-to-folder map (one outcome
per binding, independent of the candidate table's domain), and a locale
present in the folder map but absent from the candidate table is
processed exactly as if the table held only the English record: the
English entries are inserted into that locale's file. -/
theorem claim_C10 :
    (∀ (table : List (String × WifiTrans)) (fs : FS)
      (lfs : List (String × String)) (fsr : FS)
      (os : List (String × Outcome)),
      runWifi table fs lfs = some (fsr, os) →
      os.map Prod.fst = lfs.map Prod.fst) ∧
    (∀ (table : List (String × WifiTrans)) (fs : FS)
      (lf : String × String) (etr : WifiTrans),
      lookupL table lf.1 = none → lookupL table "en" = some etr →
      stepWifi table fs lf = stepWifi [("en", etr)] fs lf) := by
  refine ⟨fun table fs lfs fsr os h => runWifi_fst table lfs fs fsr os h,
    fun table fs lf etr h1 h2 => ?_⟩
  have hne : lf.1 ≠ "en" := by
    intro hh
    rw [hh, h2] at h1
    exact Option.noConfusion h1
  rw [stepWifi, stepWifi]
  cases hfs : fs lf.2 with
  | none => rfl
  | some s =>
    dsimp only
    by_cases hsent : (findSub s sentinelW).isSome = true
    · rw [if_pos hsent, if_pos hsent]
    · rw [if_neg hsent, if_neg hsent]
      cases hm : findSub s markerW with
      | none => rfl
      | some mp =>
        dsimp only
        have hL : (lookupL table lf.1).orElse
            (fun _ => lookupL table "en") = some etr := by
          rw [h1, h2]
          rfl
        have hRnone : lookupL [("en", etr)] lf.1 = none := by
          rw [lookupL]
          rw [if_neg (fun hh => hne hh.symm)]
          rfl
        have hR : (lookupL [("en", etr)] lf.1).orElse
            (fun _ => lookupL [("en", etr)] "en") = some etr := by
          rw [hRnone]
          show lookupL [("en", etr)] "en" = some etr
          rw [lookupL]
          simp
        rw [hL, hR]

/-- Witness for C10: a two-binding folder map over an empty filesystem
(both locales report the missing file), and the German locale with a
table holding only the English record. -/
theorem claim_C10_witness :
    (([("de", Outcome.notFound), ("en", Outcome.notFound)] :
        List (String × Outcome)).map Prod.fst =
      ([("de", "values"), ("en", "values-en")] :
        List (String × String)).map Prod.fst) ∧
    (stepWifi [("en", (⟨"B".toList, "U".toList, "H".toList⟩ : WifiTrans)),
        ("fr", (⟨"FB".toList, "FU".toList, "FH".toList⟩ : WifiTrans))]
        (fun _ => none) ("de", "values") =
      stepWifi [("en", (⟨"B".toList, "U".toList, "H".toList⟩ : WifiTrans))]
        (fun _ => none) ("de", "values")) :=
  ⟨claim_C10.1 [] (fun _ => none) [("de", "values"), ("en", "values-en")]
      (fun _ => none) [("de", Outcome.notFound), ("en", Outcome.notFound)]
      rfl,
   claim_C10.2 [("en", ⟨"B".toList, "U".toList, "H".toList⟩),
        ("fr", ⟨"FB".toList, "FU".toList, "FH".toList⟩)]
      (fun _ => none) ("de", "values")
      ⟨"B".toList, "U".toList, "H".toList⟩ rfl rfl⟩

end PaperlessScanner

